import Mathlib

/-! # AssetPacker (`package.cpp`, `package.h`)

A shallow embedding of the archive writer (`count_directory_`, `read_directory_`,
`package_create`), of the path resolver (`package_lookup_file`,
`package_get_path_depth`, `length_until_delim`) and of `package_read_file`,
followed by the properties proved about them.

Conventions of the embedding.

* A buffer is the list of its bytes; a C string is the list of its bytes before
  the terminating NUL, so the end of the list stands for the terminator.
* `uint32_t` and `uint64_t` values are natural numbers reduced modulo `2^32` and
  `2^64` where the source computes with them (`size_t` and `long` are 64 bits
  wide); the `int` index of the resolver is an integer, with the conversions of
  the source made explicit (`toInt32`). The `int` counters of
  `length_until_delim` and `package_get_path_depth` count bytes of the path and
  are not reduced: a path is shorter than `2^31` bytes.
* The resolver loop need not terminate on an arbitrary table, so it takes fuel,
  one unit per iteration, and yields `none` when the fuel runs out.
* The library functions `XXH32`, `LZ4_compress_default` and `LZ4_decompress_safe`
  are parameters of the definitions. `XXH32_ref` is the digest of the xxHash
  library itself, used to evaluate the definitions on concrete names.
* The file system is a value: a directory is the sequence of its entries in
  `readdir` order (`Listing`), without `.` and `..`; it does not change between
  the counting pass and the writing pass. On every entry `stat` succeeds, and
  every regular file can be opened and read: the writer checks the result of
  neither `stat` nor `fopen`, and where one fails it reads a `struct stat` that
  was not filled or hands a null stream to `fread`, which has no defined
  behaviour. Such trees are outside `Listing`.
* The writer copies paths with `strcpy` into arrays of fixed size
  (`char path[512-4]` of `Directory_Read_`, `char path_buffer[512]` of
  `read_directory_`). The definitions build the paths as the code does
  (`Directory_Read_.path`) and give the run in which every copy stays inside
  its array; `Directory_Read_.fits` is that condition. Where a copy would write
  past its array the C program has no defined behaviour, and the definitions
  say nothing about what it does then.
-/

namespace AssetPacker

/-- Bytes of a buffer, or of a C string without its terminating NUL. -/
abbrev Bytes := List Nat

/-- The bytes of an ASCII string literal. -/
def ascii (s : String) : Bytes := s.toList.map Char.toNat

def UINT32_MAX : Nat := 4294967295

/-- Conversion of an unsigned value to a 32-bit `int` (two's complement). -/
def toInt32 (n : Nat) : Int :=
  if n % 4294967296 < 2147483648 then ((n % 4294967296 : Nat) : Int)
  else ((n % 4294967296 : Nat) : Int) - 4294967296

/-! ## Records of the format -/

structure Package_Header_ where
  magic : Nat
  version : Nat
  block_count : Nat
deriving DecidableEq, Repr

/-- For a directory, `uncompressed_size` is the number of entries and
`compressed_size` is `UINT32_MAX`. -/
structure Block_Header_ where
  hash : Nat
  compressed_size : Nat
  uncompressed_size : Nat
  offset : Nat
deriving DecidableEq, Repr

structure Package_File where
  compressed_size : Nat
  uncompressed_size : Nat
  offset : Nat
deriving DecidableEq, Repr

/-- The reader's handle: contents of the open archive file, the loaded block
table and the block count. -/
structure Package where
  file : Bytes
  blocks : List Block_Header_
  block_count : Nat
deriving DecidableEq, Repr

/-- The value of `PKG_MAGIC`, the four bytes `.dhm` read as a little-endian word. -/
def PKG_MAGIC : Nat := 0x6D68642E

def block_is_directory_ (header : Block_Header_) : Bool :=
  header.compressed_size == UINT32_MAX

/-! ## Paths -/

/-- Both `/` (47) and `\` (92) are delimiters. -/
def isDelim (c : Nat) : Prop := c = 47 ∨ c = 92

instance (c : Nat) : Decidable (isDelim c) := by
  unfold isDelim; infer_instance

/-- The loop of `package_get_path_depth`: `depth` counts the delimiters seen and
`e` records whether the last delimiter seen is followed by a character. -/
def package_get_path_depth_loop : Bytes → Int → Int → Int
  | [], depth, e => depth + e
  | c :: path, depth, e =>
    if isDelim c then
      package_get_path_depth_loop path (depth + 1) (if path = [] then 0 else 1)
    else package_get_path_depth_loop path depth e

def package_get_path_depth (path : Bytes) : Int :=
  package_get_path_depth_loop path 0 0

/-- Number of bytes before the first delimiter, or the length of the string when
there is none. -/
def length_until_delim : Bytes → Nat
  | [] => 0
  | c :: s => if isDelim c then 0 else length_until_delim s + 1

/-! ## Path resolution -/

/-- What a run of `package_lookup_file` yields: the returned `int`, or `fault`
when the run leaves defined behaviour (a table read outside `blocks`, or `++i`
on `INT_MAX`). -/
inductive Lookup where
  | ret (index : Int)
  | fault
deriving DecidableEq, Repr

/-- The `for` loop of `package_lookup_file`, one iteration per unit of fuel; the
state is the index `i` and the rest of the path (`len` and `hash` of the source
are functions of it). `none` means the fuel ran out. -/
def package_lookup_file_loop (XXH32 : Bytes → Nat → Nat) (blocks : List Block_Header_)
    (count : Int) : Nat → Int → Bytes → Option Lookup
  | 0, _, _ => none
  | fuel + 1, i, path =>
    if i < count then
      if i < 0 then some Lookup.fault
      else
        match blocks[i.toNat]? with
        | none => some Lookup.fault
        | some block =>
          let len := length_until_delim path
          let hash := XXH32 (path.take len) 0
          if block.hash = hash ∧ path.drop len = [] then some (Lookup.ret i)
          else if block.hash = hash then
            package_lookup_file_loop XXH32 blocks count fuel (i + 1) (path.drop (len + 1))
          else if block_is_directory_ block then
            let j := toInt32 (i.toNat + block.uncompressed_size)
            if j = 2147483647 then some Lookup.fault
            else package_lookup_file_loop XXH32 blocks count fuel (j + 1) path
          else package_lookup_file_loop XXH32 blocks count fuel (i + 1) path
    else some (Lookup.ret (-1))

def package_lookup_file (XXH32 : Bytes → Nat → Nat) (fuel : Nat) (package : Package)
    (path : Bytes) : Option Lookup :=
  package_lookup_file_loop XXH32 package.blocks (toInt32 package.block_count) fuel 1 path

/-! ## Payload access -/

/-- Contents of the caller's two buffers after `package_read_file`. -/
structure Read_Buffers where
  compressed_buffer : Bytes
  decompressed_buffer : Bytes
deriving DecidableEq, Repr

/-- `fseek` to `file->offset`, `fread` of `file->compressed_size` bytes (fewer when
the file ends first), then `LZ4_decompress_safe` on what was read, with the two
sizes converted to `int`. `LZ4_decompress_safe src compressedSize dstCapacity`
stands for the bytes the library call puts into the destination buffer. -/
def package_read_file (LZ4_decompress_safe : Bytes → Int → Int → Bytes) (package : Package)
    (file : Package_File) : Read_Buffers :=
  let compressed_buffer := (package.file.drop file.offset).take file.compressed_size
  { compressed_buffer := compressed_buffer
    decompressed_buffer :=
      LZ4_decompress_safe compressed_buffer (toInt32 file.compressed_size)
        (toInt32 file.uncompressed_size) }

def package_get_file_info (package : Package) (index : Nat) : Option Package_File :=
  (package.blocks[index]?).map fun b =>
    { compressed_size := b.compressed_size
      uncompressed_size := b.uncompressed_size
      offset := b.offset }

/-! ## The source tree -/

/-- A directory as `opendir`/`readdir`/`stat` present it: its entries in
enumeration order, `.` and `..` left out. `stat` succeeds on every entry. An
entry is a regular file that `fopen` opens, with the contents `fread` delivers,
a directory that can be listed, a directory whose `opendir` fails, or something
for which `stat` reports neither a regular file nor a directory (a FIFO, a
socket, a device). An entry on which `stat` fails, such as a symbolic link to
nothing, and a regular file that cannot be opened are none of these. -/
inductive Listing where
  | nil : Listing
  | reg (name : Bytes) (data : Bytes) (rest : Listing) : Listing
  | dir (name : Bytes) (sub : Listing) (rest : Listing) : Listing
  | nodir (name : Bytes) (rest : Listing) : Listing
  | other (name : Bytes) (rest : Listing) : Listing
deriving DecidableEq, Repr

/-- The names of the entries of a directory, in enumeration order. -/
def Listing.d_names : Listing → List Bytes
  | Listing.nil => []
  | Listing.reg name _ rest => name :: rest.d_names
  | Listing.dir name _ rest => name :: rest.d_names
  | Listing.nodir name rest => name :: rest.d_names
  | Listing.other name rest => name :: rest.d_names

/-- The byte of `PATH_DELIM` outside Windows, `/`. -/
def PATH_DELIM : Nat := 47

/-- One directory still to be serialized. `path` holds the bytes of the
source's `path` that follow the base path and its delimiter (the first
`base_path_length` bytes of the string): nothing for the root, and
`a/b/` for the directory `b` inside the directory `a` of the root. `dir` is the
listing that `opendir(path)` yields. The `path` of the source is a
`char[512-4]`; see `Directory_Read_.fits`. -/
structure Directory_Read_ where
  hash : Nat
  path : Bytes
  dir : Listing
deriving DecidableEq, Repr

/-- The arrays of the source hold what the run copies into them for one
directory. With `base_path_length` the length of `info->base_path` and of the
delimiter that `package_create` puts behind it, the `path` of the source has
`base_path_length + read.path.length` bytes. `strcpy(read.path, path_buffer)` in
`count_directory_` writes them and the terminator into `char path[512-4]`; and
for every entry of the directory, `strcpy(&path_buffer[path_length],
dent->d_name)` in `read_directory_` writes the name and the terminator behind
them into `char path_buffer[512]` (the `char path_buffer[1024]` of
`count_directory_` then holds them too). -/
def Directory_Read_.fits (base_path_length : Nat) (read : Directory_Read_) : Prop :=
  base_path_length + read.path.length + 1 ≤ 508 ∧
  ∀ d_name ∈ read.dir.d_names,
    base_path_length + read.path.length + d_name.length + 1 ≤ 512

instance (base_path_length : Nat) (read : Directory_Read_) :
    Decidable (read.fits base_path_length) := by
  unfold Directory_Read_.fits; infer_instance

/-! ## Archive writer -/

/-- The `while ((dent = readdir(dir)))` loop of `count_directory_`, with the
running `count` (a `uint32_t`) and the read queue. `path_buffer` holds the bytes
of the source's `path_buffer` from `base_path_length` up to
`path_buffer_length`: the path of the directory being counted below the base
path, with the delimiter at its end. For a subdirectory the code appends the
name and `PATH_DELIM` and calls itself; the recursive call is unfolded in place:
its `opendir` succeeds, it copies the path into its `Directory_Read_`, pushes
that and runs the same loop from `count = 1`. A directory that cannot be opened
returns 0 and pushes nothing. -/
def count_directory_loop (XXH32 : Bytes → Nat → Nat) :
    Listing → Bytes → Nat → List Directory_Read_ → Nat × List Directory_Read_
  | Listing.nil, _, count, read_queue => (count, read_queue)
  | Listing.reg _ _ rest, path_buffer, count, read_queue =>
    count_directory_loop XXH32 rest path_buffer ((count + 1) % 4294967296) read_queue
  | Listing.dir name sub rest, path_buffer, count, read_queue =>
    let r := count_directory_loop XXH32 sub (path_buffer ++ name ++ [PATH_DELIM]) 1
      (read_queue ++
        [{ hash := XXH32 name 0, path := path_buffer ++ name ++ [PATH_DELIM], dir := sub }])
    count_directory_loop XXH32 rest path_buffer ((count + r.1) % 4294967296) r.2
  | Listing.nodir _ rest, path_buffer, count, read_queue =>
    count_directory_loop XXH32 rest path_buffer ((count + 0) % 4294967296) read_queue
  | Listing.other _ rest, path_buffer, count, read_queue =>
    count_directory_loop XXH32 rest path_buffer count read_queue

/-- `count_directory_` on a directory (`none` when `opendir` fails): the returned
count and the read queue after the call. The call is the one that
`package_create` makes: `path_buffer` holds the base path and its delimiter, so
that the path of the directory below the base path is empty. -/
def count_directory_ (XXH32 : Bytes → Nat → Nat) (dir : Option Listing) (dir_hash : Nat)
    (read_queue : List Directory_Read_) : Nat × List Directory_Read_ :=
  match dir with
  | none => (0, read_queue)
  | some entries =>
    count_directory_loop XXH32 entries [] 1
      (read_queue ++ [{ hash := dir_hash, path := [], dir := entries }])

/-- One block record written to the table, in the order of writing, with the
payload write that goes with a file record: the file position and the bytes
handed to `fwrite`. -/
structure Block_Write where
  header : Block_Header_
  payload : Option (Nat × Bytes)
deriving DecidableEq, Repr

/-- The first loop of `read_directory_`: `dir_header.uncompressed_size++` for
every entry. -/
def read_directory_count : Listing → Nat → Nat
  | Listing.nil, n => n
  | Listing.reg _ _ rest, n => read_directory_count rest ((n + 1) % 4294967296)
  | Listing.dir _ _ rest, n => read_directory_count rest ((n + 1) % 4294967296)
  | Listing.nodir _ rest, n => read_directory_count rest ((n + 1) % 4294967296)
  | Listing.other _ rest, n => read_directory_count rest ((n + 1) % 4294967296)

/-- The second loop of `read_directory_`: one record and one payload write per
regular file; `data_offset` is the `uint64_t` write cursor. `compressed_size` is
the `int` of the source (for the codec, the length of its output). The payload
is what `fwrite(compressed_buffer, compressed_size, 1, output)` takes from the
buffer when `compressed_size` is not negative. For a negative `compressed_size`
(an uncompressed file whose size modulo `2^32` is `2^31` or more) the size
handed to `fwrite` exceeds the buffer, and what reaches the file, there and
behind the `data_offset` that follows, is not determined by the source: the
payloads computed here then say nothing about the file. -/
def read_directory_files (XXH32 : Bytes → Nat → Nat) (LZ4_compress_default : Bytes → Bytes)
    (compress : Bool) : Listing → Nat → List Block_Write × Nat
  | Listing.nil, data_offset => ([], data_offset)
  | Listing.reg name data rest, data_offset =>
    let st_size := data.length
    let compressed_buffer := if compress then LZ4_compress_default data else data
    let compressed_size : Int :=
      if compress then toInt32 (LZ4_compress_default data).length else toInt32 st_size
    let header : Block_Header_ :=
      { hash := XXH32 name 0
        compressed_size := (compressed_size % 4294967296).toNat
        uncompressed_size := st_size % 4294967296
        offset := data_offset % 4294967296 }
    let written := compressed_buffer.take (compressed_size % 18446744073709551616).toNat
    let r := read_directory_files XXH32 LZ4_compress_default compress rest
      (((data_offset : Int) + compressed_size) % 18446744073709551616).toNat
    ({ header := header, payload := some (data_offset, written) } :: r.1, r.2)
  | Listing.dir _ _ rest, data_offset =>
    read_directory_files XXH32 LZ4_compress_default compress rest data_offset
  | Listing.nodir _ rest, data_offset =>
    read_directory_files XXH32 LZ4_compress_default compress rest data_offset
  | Listing.other _ rest, data_offset =>
    read_directory_files XXH32 LZ4_compress_default compress rest data_offset

/-- `read_directory_`: the directory's own record, then the records of its
regular files; returns the records written and the new `data_offset`.
`opendir(read.path)` yields `read.dir`, the directory that `count_directory_`
opened under the same path. -/
def read_directory_ (XXH32 : Bytes → Nat → Nat) (LZ4_compress_default : Bytes → Bytes)
    (read : Directory_Read_) (data_offset : Nat) (compress : Bool) : List Block_Write × Nat :=
  let dir_header : Block_Header_ :=
    { hash := read.hash
      compressed_size := UINT32_MAX
      uncompressed_size := read_directory_count read.dir 0
      offset := 0 }
  let r := read_directory_files XXH32 LZ4_compress_default compress read.dir data_offset
  ({ header := dir_header, payload := none } :: r.1, r.2)

structure Package_Create where
  /-- The directory `base_path` names; `none` when it cannot be opened. -/
  base_path : Option Listing
  disable_compression : Bool
deriving DecidableEq, Repr

/-- What `package_create` puts in the output file: the header and, in the order
of writing, the block records with their payload writes. The k-th record lies
at file position `12 + 16 * k`. -/
structure Archive where
  header : Package_Header_
  written : List Block_Write
deriving DecidableEq, Repr

/-- The block table as written: the records in file order. -/
def Archive.table (a : Archive) : List Block_Header_ := a.written.map Block_Write.header

/-- The `for` loop of `package_create` over the read queue. -/
def package_create_loop (XXH32 : Bytes → Nat → Nat) (LZ4_compress_default : Bytes → Bytes)
    (compress : Bool) : List Directory_Read_ → Nat → List Block_Write
  | [], _ => []
  | read :: read_queue, data_offset =>
    let r := read_directory_ XXH32 LZ4_compress_default read data_offset compress
    r.1 ++ package_create_loop XXH32 LZ4_compress_default compress read_queue r.2

/-- `package_create` for an output file that opens, in a run in which every
path fits the array it is copied into (`package_create_fits`). -/
def package_create (XXH32 : Bytes → Nat → Nat) (LZ4_compress_default : Bytes → Bytes)
    (info : Package_Create) : Archive :=
  let counted := count_directory_ XXH32 info.base_path 0 []
  let header : Package_Header_ :=
    { magic := PKG_MAGIC, version := 0, block_count := (0 + counted.1) % 4294967296 }
  let tree_size := header.block_count * 16
  { header := header
    written := package_create_loop XXH32 LZ4_compress_default (!info.disable_compression)
      counted.2 (tree_size + 12) }

/-- Every `strcpy` of the run of `package_create` stays inside its array: each
directory of the read queue fits. `base_path_length` is the length of
`info->base_path` and of the delimiter behind it, the `path_buffer_length` that
`package_create` passes to `count_directory_`. -/
def package_create_fits (XXH32 : Bytes → Nat → Nat) (base_path_length : Nat)
    (info : Package_Create) : Prop :=
  ∀ read ∈ (count_directory_ XXH32 info.base_path 0 []).2, read.fits base_path_length

instance (XXH32 : Bytes → Nat → Nat) (base_path_length : Nat) (info : Package_Create) :
    Decidable (package_create_fits XXH32 base_path_length info) := by
  unfold package_create_fits; infer_instance

/-- Little-endian bytes of a `uint32_t`. -/
def le32 (n : Nat) : Bytes := [n % 256, n / 256 % 256, n / 65536 % 256, n / 16777216 % 256]

def Block_Header_.bytes (b : Block_Header_) : Bytes :=
  le32 b.hash ++ le32 b.compressed_size ++ le32 b.uncompressed_size ++ le32 b.offset

/-- `fseek(output, pos, SEEK_SET)` followed by `fwrite` of `b`: bytes already
there are overwritten, a gap before `pos` reads as zeros. -/
def fwrite_at (file : Bytes) (pos : Nat) (b : Bytes) : Bytes :=
  (file ++ List.replicate (pos - file.length) 0).take pos ++ b ++ file.drop (pos + b.length)

/-- Replays the writes of the records in order: for a file record the payload
goes to its position first, then the record goes to `header_pos`. -/
def Archive.image_loop : List Block_Write → Nat → Bytes → Bytes
  | [], _, file => file
  | w :: ws, header_pos, file =>
    let file1 :=
      match w.payload with
      | none => file
      | some (pos, b) => fwrite_at file pos b
    Archive.image_loop ws (header_pos + 16) (fwrite_at file1 header_pos w.header.bytes)

/-- The bytes of the output file once `package_create` has closed it. -/
def Archive.image (a : Archive) : Bytes :=
  Archive.image_loop a.written 12
    (le32 a.header.magic ++ le32 a.header.version ++ le32 a.header.block_count)

/-- The handle on an archive written by `package_create` and opened again: the
file contents, and the table and the block count as written. -/
def Archive.package (a : Archive) : Package :=
  { file := a.image, blocks := a.table, block_count := a.header.block_count }

/-! ## The XXH32 digest -/

def XXH_PRIME32_1 : Nat := 2654435761
def XXH_PRIME32_2 : Nat := 2246822519
def XXH_PRIME32_3 : Nat := 3266489917
def XXH_PRIME32_4 : Nat := 668265263
def XXH_PRIME32_5 : Nat := 374761393

def XXH_rotl32 (x r : Nat) : Nat := ((x <<< r) ||| (x >>> (32 - r))) % 4294967296

/-- Little-endian 32-bit word at the head of a buffer. -/
def XXH_readLE32 (p : Bytes) : Nat :=
  p.getD 0 0 + 256 * p.getD 1 0 + 65536 * p.getD 2 0 + 16777216 * p.getD 3 0

def XXH32_round (acc input : Nat) : Nat :=
  (XXH_rotl32 ((acc + input * XXH_PRIME32_2) % 4294967296) 13 * XXH_PRIME32_1) % 4294967296

/-- The 16-byte stripes of an input of at least 16 bytes. -/
def XXH32_stripes : Nat → Bytes → Nat × Nat × Nat × Nat → (Nat × Nat × Nat × Nat) × Bytes
  | 0, p, v => (v, p)
  | n + 1, p, (v1, v2, v3, v4) =>
    XXH32_stripes n (p.drop 16)
      (XXH32_round v1 (XXH_readLE32 p), XXH32_round v2 (XXH_readLE32 (p.drop 4)),
       XXH32_round v3 (XXH_readLE32 (p.drop 8)), XXH32_round v4 (XXH_readLE32 (p.drop 12)))

/-- The remaining whole words. -/
def XXH32_words : Nat → Bytes → Nat → Nat × Bytes
  | 0, p, h => (h, p)
  | n + 1, p, h =>
    XXH32_words n (p.drop 4)
      ((XXH_rotl32 ((h + XXH_readLE32 p * XXH_PRIME32_3) % 4294967296) 17 * XXH_PRIME32_4)
        % 4294967296)

/-- The remaining bytes. -/
def XXH32_bytes : Bytes → Nat → Nat
  | [], h => h
  | b :: p, h =>
    XXH32_bytes p
      ((XXH_rotl32 ((h + b * XXH_PRIME32_5) % 4294967296) 11 * XXH_PRIME32_1) % 4294967296)

def XXH32_avalanche (h : Nat) : Nat :=
  let h1 := ((h ^^^ (h >>> 15)) * XXH_PRIME32_2) % 4294967296
  let h2 := ((h1 ^^^ (h1 >>> 13)) * XXH_PRIME32_3) % 4294967296
  h2 ^^^ (h2 >>> 16)

/-- The 32-bit xxHash digest of a buffer (xxHash library, `XXH32(input, len, seed)`),
as an executable function. -/
def XXH32_ref (input : Bytes) (seed : Nat) : Nat :=
  let len := input.length
  let start : Nat × Bytes :=
    if 16 ≤ len then
      let s := XXH32_stripes (len / 16) input
        ((seed + XXH_PRIME32_1 + XXH_PRIME32_2) % 4294967296,
         (seed + XXH_PRIME32_2) % 4294967296, seed % 4294967296,
         (seed + 4294967296 - XXH_PRIME32_1) % 4294967296)
      ((XXH_rotl32 s.1.1 1 + XXH_rotl32 s.1.2.1 7 + XXH_rotl32 s.1.2.2.1 12
          + XXH_rotl32 s.1.2.2.2 18) % 4294967296, s.2)
    else ((seed + XXH_PRIME32_5) % 4294967296, input)
  let w := XXH32_words (start.2.length / 4) start.2 ((start.1 + len) % 4294967296)
  XXH32_avalanche (XXH32_bytes w.2 w.1)

/-! ## Vocabulary of the specification -/

/-- What a name denotes inside a directory. -/
inductive Node where
  | file (data : Bytes)
  | directory (entries : Listing)
  | unreadable
  | special
deriving DecidableEq, Repr

/-- The entry of a directory with a given name. -/
def Listing.child : Listing → Bytes → Option Node
  | Listing.nil, _ => none
  | Listing.reg name data rest, n => if name = n then some (Node.file data) else rest.child n
  | Listing.dir name sub rest, n => if name = n then some (Node.directory sub) else rest.child n
  | Listing.nodir name rest, n => if name = n then some Node.unreadable else rest.child n
  | Listing.other name rest, n => if name = n then some Node.special else rest.child n

/-- What a path, given by its segments, names below a directory. -/
def Listing.resolve : Listing → List Bytes → Option Node
  | entries, [] => some (Node.directory entries)
  | entries, [n] => entries.child n
  | entries, n :: m :: ns =>
    match entries.child n with
    | some (Node.directory sub) => sub.resolve (m :: ns)
    | _ => none

/-- Every directory of the tree can be listed and every entry is a regular file
or a directory. -/
def Listing.plain : Listing → Prop
  | Listing.nil => True
  | Listing.reg _ _ rest => rest.plain
  | Listing.dir _ sub rest => sub.plain ∧ rest.plain
  | Listing.nodir _ _ => False
  | Listing.other _ _ => False

instance Listing.decidablePlain : (l : Listing) → Decidable l.plain
  | Listing.nil => isTrue trivial
  | Listing.reg _ _ rest => Listing.decidablePlain rest
  | Listing.dir _ sub rest =>
    match Listing.decidablePlain sub, Listing.decidablePlain rest with
    | isTrue a, isTrue b => isTrue ⟨a, b⟩
    | isFalse a, _ => isFalse fun h => a h.1
    | _, isFalse b => isFalse fun h => b h.2
  | Listing.nodir _ _ => isFalse fun h => h
  | Listing.other _ _ => isFalse fun h => h

/-- Number of regular files anywhere below a directory. -/
def Listing.files : Listing → Nat
  | Listing.nil => 0
  | Listing.reg _ _ rest => 1 + rest.files
  | Listing.dir _ sub rest => sub.files + rest.files
  | Listing.nodir _ rest => rest.files
  | Listing.other _ rest => rest.files

/-- Number of subdirectories anywhere below a directory. -/
def Listing.subdirs : Listing → Nat
  | Listing.nil => 0
  | Listing.reg _ _ rest => rest.subdirs
  | Listing.dir _ sub rest => 1 + sub.subdirs + rest.subdirs
  | Listing.nodir _ rest => 1 + rest.subdirs
  | Listing.other _ rest => rest.subdirs

/-- Sum, over the direct children of a directory, of their recursive counts:
1 for a regular file, the value of `count_directory_` for a subdirectory. -/
def Listing.child_counts (XXH32 : Bytes → Nat → Nat) : Listing → Nat
  | Listing.nil => 0
  | Listing.reg _ _ rest => 1 + rest.child_counts XXH32
  | Listing.dir name sub rest =>
    (count_directory_ XXH32 (some sub) (XXH32 name 0) []).1 + rest.child_counts XXH32
  | Listing.nodir name rest =>
    (count_directory_ XXH32 none (XXH32 name 0) []).1 + rest.child_counts XXH32
  | Listing.other _ rest => rest.child_counts XXH32

/-- The listable subdirectories below a directory in pre-order: each one before
its own subdirectories, siblings in enumeration order; `path` is the path of
the directory itself below the base path, with the delimiter at its end. -/
def Listing.reads (XXH32 : Bytes → Nat → Nat) : Listing → Bytes → List Directory_Read_
  | Listing.nil, _ => []
  | Listing.reg _ _ rest, path => rest.reads XXH32 path
  | Listing.dir name sub rest, path =>
    { hash := XXH32 name 0, path := path ++ name ++ [PATH_DELIM], dir := sub }
      :: (sub.reads XXH32 (path ++ name ++ [PATH_DELIM]) ++ rest.reads XXH32 path)
  | Listing.nodir _ rest, path => rest.reads XXH32 path
  | Listing.other _ rest, path => rest.reads XXH32 path

/-- The regular files directly inside a directory, as (name, contents), in
enumeration order. -/
def Listing.direct_files : Listing → List (Bytes × Bytes)
  | Listing.nil => []
  | Listing.reg name data rest => (name, data) :: rest.direct_files
  | Listing.dir _ _ rest => rest.direct_files
  | Listing.nodir _ rest => rest.direct_files
  | Listing.other _ rest => rest.direct_files

/-- The regular files anywhere below a directory, as (name, contents). -/
def Listing.all_files : Listing → List (Bytes × Bytes)
  | Listing.nil => []
  | Listing.reg name data rest => (name, data) :: rest.all_files
  | Listing.dir _ sub rest => sub.all_files ++ rest.all_files
  | Listing.nodir _ rest => rest.all_files
  | Listing.other _ rest => rest.all_files

/-- Two paths that differ at most in which of the two delimiters stands at a
delimiter position. -/
def DelimEq : Bytes → Bytes → Prop
  | [], [] => True
  | a :: p, b :: q => (a = b ∨ (isDelim a ∧ isDelim b)) ∧ DelimEq p q
  | _, _ => False

/-! ## Concrete inputs -/

/-- The tree `root/{a.txt = "hi", sub/{b.txt = "yo"}}`, `a.txt` enumerated first. -/
def tree_a_sub : Listing :=
  Listing.reg (ascii "a.txt") (ascii "hi")
    (Listing.dir (ascii "sub") (Listing.reg (ascii "b.txt") (ascii "yo") Listing.nil) Listing.nil)

/-- The same tree, `sub` enumerated first. -/
def tree_sub_a : Listing :=
  Listing.dir (ascii "sub") (Listing.reg (ascii "b.txt") (ascii "yo") Listing.nil)
    (Listing.reg (ascii "a.txt") (ascii "hi") Listing.nil)

/-- The tree `root/{s/{t/{d = "x"}}, d/{f = "y"}}`: the directory `d` of the root
comes after a directory `s` whose subdirectory `t` holds a file also named `d`. -/
def tree_shadow : Listing :=
  Listing.dir (ascii "s")
    (Listing.dir (ascii "t") (Listing.reg (ascii "d") (ascii "x") Listing.nil) Listing.nil)
    (Listing.dir (ascii "d") (Listing.reg (ascii "f") (ascii "y") Listing.nil) Listing.nil)

/-- The tree `root/{a.txt = "hi", b.txt = "yo"}`. -/
def tree_flat : Listing :=
  Listing.reg (ascii "a.txt") (ascii "hi") (Listing.reg (ascii "b.txt") (ascii "yo") Listing.nil)

/-- The tree `root/{a.txt = "hi"}`. -/
def tree_single : Listing := Listing.reg (ascii "a.txt") (ascii "hi") Listing.nil

/-- A codec that satisfies the round-trip law and nothing more: compression
puts one byte in front, decompression drops it. -/
def tag_compress (b : Bytes) : Bytes := 1 :: b

def tag_decompress (src : Bytes) (compressedSize dstCapacity : Int) : Bytes :=
  if compressedSize < 1 ∨ dstCapacity < 0 then []
  else ((src.take compressedSize.toNat).drop 1).take dstCapacity.toNat

/-- A directory of `n` regular empty files named `n`, ..., `1` in decimal. -/
def many_files : Nat → Listing
  | 0 => Listing.nil
  | n + 1 => Listing.reg ((Nat.toDigits 10 (n + 1)).map Char.toNat) [] (many_files n)

/-- The tree `root/{big}` where `big` is a regular file of `size` zero bytes. -/
def tree_big (size : Nat) : Listing :=
  Listing.reg (ascii "big") (List.replicate size 0) Listing.nil

/-- Number of records below a directory: one per regular file and one per
listable subdirectory, at any depth of the listable part of the tree. -/
def Listing.block_total : Listing → Nat
  | Listing.nil => 0
  | Listing.reg _ _ rest => 1 + rest.block_total
  | Listing.dir _ sub rest => 1 + sub.block_total + rest.block_total
  | Listing.nodir _ rest => rest.block_total
  | Listing.other _ rest => rest.block_total

/-! ## Archive reader -/

/-- Little-endian `uint32_t` at position `pos` of a buffer. -/
def read_le32 (b : Bytes) (pos : Nat) : Nat :=
  b.getD pos 0 + 256 * b.getD (pos + 1) 0 + 65536 * b.getD (pos + 2) 0
    + 16777216 * b.getD (pos + 3) 0

/-- `fread` of `n` bytes from position `pos` of the file into memory whose
previous contents are `buffer`: the bytes the file delivers come first, what the
file does not deliver keeps its previous contents. -/
def fread_into (buffer file : Bytes) (pos n : Nat) : Bytes :=
  (file.drop pos).take n ++ (buffer.take n).drop ((file.drop pos).take n).length

/-- The block record at position `pos` of a buffer. -/
def Block_Header_.parse (b : Bytes) (pos : Nat) : Block_Header_ :=
  { hash := read_le32 b pos
    compressed_size := read_le32 b (pos + 4)
    uncompressed_size := read_le32 b (pos + 8)
    offset := read_le32 b (pos + 12) }

/-- `package_open`: the returned `int` and the caller's `Package` after the call.
`input` is the contents of the file (`none` when `fopen` fails); `stack` and
`heap` are the previous contents of the local `header` and of the memory that
`malloc` returns, which `fread` leaves in place where the file is too short. -/
def package_open (input : Option Bytes) (stack heap : Bytes) (out : Package) : Int × Package :=
  match input with
  | none => (-1, out)
  | some file =>
    let header := fread_into stack file 0 12
    if read_le32 header 0 ≠ PKG_MAGIC then (-1, out)
    else
      let block_count := read_le32 header 8
      let blocks := fread_into heap file 12 (block_count * 16)
      (0, { file := file
            blocks := (List.range block_count).map fun k => Block_Header_.parse blocks (16 * k)
            block_count := block_count })

/-! ## The resolver, instrumented -/

/-- The table indices `i` at which the loop of `package_lookup_file` evaluates
`blocks[i]`, in the order of the iterations: the same loop as
`package_lookup_file_loop`, recording `i` instead of the result. -/
def package_lookup_file_reads (XXH32 : Bytes → Nat → Nat) (blocks : List Block_Header_)
    (count : Int) : Nat → Int → Bytes → List Int
  | 0, _, _ => []
  | fuel + 1, i, path =>
    if i < count then
      i ::
        (if i < 0 then []
        else
          match blocks[i.toNat]? with
          | none => []
          | some block =>
            let len := length_until_delim path
            let hash := XXH32 (path.take len) 0
            if block.hash = hash ∧ path.drop len = [] then []
            else if block.hash = hash then
              package_lookup_file_reads XXH32 blocks count fuel (i + 1) (path.drop (len + 1))
            else if block_is_directory_ block then
              let j := toInt32 (i.toNat + block.uncompressed_size)
              if j = 2147483647 then []
              else package_lookup_file_reads XXH32 blocks count fuel (j + 1) path
            else package_lookup_file_reads XXH32 blocks count fuel (i + 1) path)
    else []

/-- The index arithmetic of the resolver does not overflow on a table: for every
directory record, its index plus its child count plus one fits an `int`. -/
def Index_No_Overflow (blocks : List Block_Header_) : Prop :=
  ∀ (i : Nat) (b : Block_Header_), blocks[i]? = some b → block_is_directory_ b = true →
    i + b.uncompressed_size < 2147483647

/-- The segments of a path: the runs of bytes between delimiters. A path that
ends with a delimiter has an empty last segment. -/
def segments : Bytes → List Bytes
  | [] => [[]]
  | c :: path =>
    if isDelim c then [] :: segments path
    else
      match segments path with
      | [] => [[c]]
      | s :: rest => (c :: s) :: rest

/-! ## Vocabulary of the layout -/

/-- Number of entries directly inside a directory. -/
def Listing.entries : Listing → Nat
  | Listing.nil => 0
  | Listing.reg _ _ rest => 1 + rest.entries
  | Listing.dir _ _ rest => 1 + rest.entries
  | Listing.nodir _ rest => 1 + rest.entries
  | Listing.other _ rest => 1 + rest.entries

/-- Length of the payload stored for a file: of the codec's output when the
archive is compressed, of the file itself otherwise. -/
def stored_length (LZ4_compress_default : Bytes → Bytes) (compress : Bool) (data : Bytes) : Nat :=
  if compress then (LZ4_compress_default data).length else data.length

/-- Sum of the stored lengths of the regular files directly inside a directory. -/
def Listing.direct_payload (LZ4_compress_default : Bytes → Bytes) (compress : Bool)
    (entries : Listing) : Nat :=
  (entries.direct_files.map fun f => stored_length LZ4_compress_default compress f.2).sum

/-- Sum of the stored lengths of the regular files anywhere in the listable
part of a tree. -/
def Listing.payload_total (LZ4_compress_default : Bytes → Bytes) (compress : Bool) :
    Listing → Nat
  | Listing.nil => 0
  | Listing.reg _ data rest =>
    stored_length LZ4_compress_default compress data
      + rest.payload_total LZ4_compress_default compress
  | Listing.dir _ sub rest =>
    sub.payload_total LZ4_compress_default compress
      + rest.payload_total LZ4_compress_default compress
  | Listing.nodir _ rest => rest.payload_total LZ4_compress_default compress
  | Listing.other _ rest => rest.payload_total LZ4_compress_default compress

/-- Size of the archive of a tree: the header, one record for the root and for
each file and listable subdirectory, and the stored payloads. -/
def archive_size (LZ4_compress_default : Bytes → Bytes) (compress : Bool) (tree : Listing) : Nat :=
  12 + 16 * (1 + tree.block_total) + tree.payload_total LZ4_compress_default compress

/-- The file records of an archive in table order. -/
def Archive.file_records (a : Archive) : List Block_Header_ :=
  (a.written.filter fun w => w.payload.isSome).map Block_Write.header

/-- File records laid out back to back from the position `start`: each offset
is the previous offset plus the previous `compressed_size`. -/
def Contiguous : Nat → List Block_Header_ → Prop
  | _, [] => True
  | start, r :: rs => r.offset = start ∧ Contiguous (start + r.compressed_size) rs

/-- A run of records in which the skip from a directory record stays inside the
run: the position after the record plus its child count is at most the end. -/
def Nested (xs : List Block_Header_) : Prop :=
  ∀ (k : Nat) (b : Block_Header_), xs[k]? = some b → block_is_directory_ b = true →
    k + b.uncompressed_size + 1 ≤ xs.length

/-- The tree `root/{A/{B/{f = "x"}}}` where the names `A` and `B` are 251
bytes long: below a base path of four bytes the path of `B`, with the
delimiters, has 509 bytes. -/
def tree_long_path : Listing :=
  Listing.dir (List.replicate 251 65)
    (Listing.dir (List.replicate 251 66) (Listing.reg (ascii "f") (ascii "x") Listing.nil)
      Listing.nil)
    Listing.nil

end AssetPacker

/-! # Theorems -/

namespace AssetPacker

set_option maxRecDepth 100000

/-! ## The resolver and its fuel -/

/-- A run of the resolver loop that has returned keeps its result with more fuel. -/
theorem package_lookup_file_loop_mono (XXH32 : Bytes → Nat → Nat) (blocks : List Block_Header_)
    (count : Int) (r : Lookup) :
    ∀ (fuel : Nat) (i : Int) (path : Bytes),
      package_lookup_file_loop XXH32 blocks count fuel i path = some r →
      ∀ k, package_lookup_file_loop XXH32 blocks count (fuel + k) i path = some r := by
  intro fuel
  induction fuel with
  | zero => intro i path h; simp [package_lookup_file_loop] at h
  | succ n ih =>
    intro i path h k
    rw [Nat.add_right_comm]
    rw [package_lookup_file_loop] at h ⊢
    by_cases h1 : i < count
    · simp only [h1, if_true] at h ⊢
      by_cases h2 : i < 0
      · simp only [h2, if_true] at h ⊢
        exact h
      · simp only [h2, if_false] at h ⊢
        cases hb : blocks[i.toNat]? with
        | none => simp only [hb] at h ⊢; exact h
        | some block =>
          simp only [hb] at h ⊢
          by_cases h3 : block.hash = XXH32 (List.take (length_until_delim path) path) 0 ∧
              List.drop (length_until_delim path) path = []
          · simp only [h3, and_self, if_true] at h ⊢
            exact h
          · simp only [h3, if_false] at h ⊢
            by_cases h4 : block.hash = XXH32 (List.take (length_until_delim path) path) 0
            · simp only [h4, if_true] at h ⊢
              exact ih _ _ h k
            · simp only [h4, if_false] at h ⊢
              cases h5 : block_is_directory_ block with
              | true =>
                simp only [h5, if_true] at h ⊢
                by_cases h6 : toInt32 (i.toNat + block.uncompressed_size) = 2147483647
                · simp only [h6, if_true] at h ⊢
                  exact h
                · simp only [h6, if_false] at h ⊢
                  exact ih _ _ h k
              | false =>
                simp only [h5, Bool.false_eq_true, if_false] at h ⊢
                exact ih _ _ h k
    · simp only [h1, if_false] at h ⊢
      exact h

theorem package_lookup_file_mono (XXH32 : Bytes → Nat → Nat) (package : Package) (path : Bytes)
    (fuel : Nat) (r : Lookup) (h : package_lookup_file XXH32 fuel package path = some r) (k : Nat) :
    package_lookup_file XXH32 (fuel + k) package path = some r :=
  package_lookup_file_loop_mono XXH32 _ _ r fuel 1 path h k

/-! ## C1, C2, C3: the resolver on archives of `package_create` -/

/-- C1, the code at a failing input. In the tree `root/{s/{t/{d}}, d/{f}}` every
directory can be listed, all entries are regular files or directories and the
four names have four different digests; `d/f` is a regular file and its record
is record 5 of the table that `package_create` writes. With enough fuel for the
whole table, `package_lookup_file` returns -1 for `d/f`. -/
theorem lookup_misses_file_behind_nested_directory (k : Nat) :
    tree_shadow.plain ∧
    [XXH32_ref (ascii "s") 0, XXH32_ref (ascii "t") 0, XXH32_ref (ascii "d") 0,
      XXH32_ref (ascii "f") 0].Nodup ∧
    tree_shadow.resolve [ascii "d", ascii "f"] = some (Node.file (ascii "y")) ∧
    (package_create XXH32_ref id ⟨some tree_shadow, true⟩).table[5]? =
      some ⟨XXH32_ref (ascii "f") 0, 1, 1, 109⟩ ∧
    package_lookup_file XXH32_ref (6 + k)
      (package_create XXH32_ref id ⟨some tree_shadow, true⟩).package (ascii "d/f") =
      some (Lookup.ret (-1)) :=
  ⟨by decide, by decide, by decide, by decide,
    package_lookup_file_mono XXH32_ref _ _ 6 _ (by decide) k⟩

/-- C2, the code at a failing input. In the tree `root/{a.txt, b.txt}` the path
`a.txt/b.txt` names nothing, the two names have different digests, and with
enough fuel for the whole table `package_lookup_file` returns 2, the index of
the record of `b.txt`. -/
theorem lookup_finds_path_through_regular_file (k : Nat) :
    tree_flat.plain ∧
    XXH32_ref (ascii "a.txt") 0 ≠ XXH32_ref (ascii "b.txt") 0 ∧
    tree_flat.resolve [ascii "a.txt", ascii "b.txt"] = none ∧
    (package_create XXH32_ref id ⟨some tree_flat, true⟩).table[2]? =
      some ⟨XXH32_ref (ascii "b.txt") 0, 2, 2, 62⟩ ∧
    package_lookup_file XXH32_ref (3 + k)
      (package_create XXH32_ref id ⟨some tree_flat, true⟩).package (ascii "a.txt/b.txt") =
      some (Lookup.ret 2) :=
  ⟨by decide, by decide, by decide, by decide,
    package_lookup_file_mono XXH32_ref _ _ 3 _ (by decide) k⟩

/-- C3, the code at a failing input. In the tree `root/{s/{t/{d}}, d/{f}}` the
path `d` names a directory, whose record is record 4; with enough fuel for the
whole table `package_lookup_file` returns 3, the record of the regular file
`s/t/d`, whose `compressed_size` is 1 and not the directory sentinel. -/
theorem lookup_of_directory_returns_file_record (k : Nat) :
    tree_shadow.resolve [ascii "d"] =
      some (Node.directory (Listing.reg (ascii "f") (ascii "y") Listing.nil)) ∧
    (package_create XXH32_ref id ⟨some tree_shadow, true⟩).table[4]? =
      some ⟨XXH32_ref (ascii "d") 0, UINT32_MAX, 1, 0⟩ ∧
    (package_create XXH32_ref id ⟨some tree_shadow, true⟩).table[3]? =
      some ⟨XXH32_ref (ascii "d") 0, 1, 1, 108⟩ ∧
    package_lookup_file XXH32_ref (6 + k)
      (package_create XXH32_ref id ⟨some tree_shadow, true⟩).package (ascii "d") =
      some (Lookup.ret 3) :=
  ⟨by decide, by decide, by decide,
    package_lookup_file_mono XXH32_ref _ _ 6 _ (by decide) k⟩

/-! ## C7: `package_get_path_depth` -/

/-- C7, the code at the four paths of the claim: `package_get_path_depth`
returns 3 for `a/b/c` and for `a/b/c/` and 0 for the empty string, and it
returns 0, not 1, for the single segment `a`. -/
theorem path_depth_of_single_segment_is_zero :
    package_get_path_depth (ascii "a/b/c") = 3 ∧
    package_get_path_depth (ascii "a/b/c/") = 3 ∧
    package_get_path_depth (ascii "") = 0 ∧
    package_get_path_depth (ascii "a") = 0 := by
  decide

/-! ## C4, C5: `package_read_file` -/

/-- C4 as stated fails on the code. The archive of `root/{a.txt, sub/{b.txt}}`
is opened, record 2 is the record of the directory `sub` and carries the
sentinel; `package_read_file` on it seeks to offset 0 and reads the 80 bytes of
the archive into the compressed buffer. -/
theorem read_file_on_directory_record_reads_archive :
    package_get_file_info (package_create XXH32_ref tag_compress ⟨some tree_a_sub, true⟩).package 2
      = some ⟨UINT32_MAX, 1, 0⟩ ∧
    package_read_file tag_decompress
      (package_create XXH32_ref tag_compress ⟨some tree_a_sub, true⟩).package ⟨UINT32_MAX, 1, 0⟩
      = ⟨(package_create XXH32_ref tag_compress ⟨some tree_a_sub, true⟩).image, []⟩ ∧
    (package_create XXH32_ref tag_compress ⟨some tree_a_sub, true⟩).image.length = 80 := by
  decide

/-- C4 as amended: `package_read_file` makes no check on the record. For a
record with the directory sentinel, on an archive that ends within
`0xFFFFFFFF` bytes of `offset`, it reads every byte of the file from `offset`
on into the compressed buffer and calls the decompressor on them with
`compressedSize = -1` and the capacity `uncompressed_size`, the same steps as
for a file record. -/
theorem read_file_makes_no_directory_check (LZ4_decompress_safe : Bytes → Int → Int → Bytes)
    (package : Package) (file : Package_File)
    (hdir : file.compressed_size = UINT32_MAX)
    (hlen : package.file.length ≤ file.offset + UINT32_MAX) :
    package_read_file LZ4_decompress_safe package file =
      { compressed_buffer := package.file.drop file.offset
        decompressed_buffer :=
          LZ4_decompress_safe (package.file.drop file.offset) (-1)
            (toInt32 file.uncompressed_size) } := by
  have h : (package.file.drop file.offset).take file.compressed_size
      = package.file.drop file.offset := by
    apply List.take_of_length_le
    rw [List.length_drop, hdir]
    omega
  have hm : toInt32 UINT32_MAX = -1 := by decide
  rw [hdir] at h
  simp only [package_read_file, hdir, h, hm]

theorem read_file_makes_no_directory_check_witness :
    (⟨UINT32_MAX, 2, 1⟩ : Package_File).compressed_size = UINT32_MAX ∧
    (⟨[7, 8, 9], [], 0⟩ : Package).file.length ≤ (⟨UINT32_MAX, 2, 1⟩ : Package_File).offset + UINT32_MAX ∧
    package_read_file tag_decompress ⟨[7, 8, 9], [], 0⟩ ⟨UINT32_MAX, 2, 1⟩ =
      { compressed_buffer := [8, 9]
        decompressed_buffer := tag_decompress [8, 9] (-1) (toInt32 2) } :=
  ⟨rfl, by decide,
    read_file_makes_no_directory_check tag_decompress ⟨[7, 8, 9], [], 0⟩ ⟨UINT32_MAX, 2, 1⟩ rfl
      (by decide)⟩

/-- C5, the code at a failing input. The codec `tag_compress`/`tag_decompress`
satisfies the round-trip law. The tree `root/{a.txt = "hi"}` is packed with
compression disabled: record 1 is the record of `a.txt`, with both sizes 2 and
the payload `hi` stored at offset 44. `package_read_file` reads `hi` into the
compressed buffer and then runs the decompressor on it: the decompressed
buffer holds `i`, not `hi`. -/
theorem read_file_decompresses_uncompressed_payload :
    (∀ b : Bytes, tag_decompress (tag_compress b) (tag_compress b).length b.length = b) ∧
    (package_create XXH32_ref tag_compress ⟨some tree_single, true⟩).written[1]? =
      some ⟨⟨XXH32_ref (ascii "a.txt") 0, 2, 2, 44⟩, some (44, ascii "hi")⟩ ∧
    package_get_file_info (package_create XXH32_ref tag_compress ⟨some tree_single, true⟩).package 1
      = some ⟨2, 2, 44⟩ ∧
    package_read_file tag_decompress
      (package_create XXH32_ref tag_compress ⟨some tree_single, true⟩).package ⟨2, 2, 44⟩
      = ⟨ascii "hi", ascii "i"⟩ :=
  ⟨fun b => by simp [tag_decompress, tag_compress], by decide, by decide, by decide⟩

/-! ## C6: the concrete scenario -/

theorem toInt32_emod (n : Nat) : (toInt32 n % 4294967296).toNat = n % 4294967296 := by
  unfold toInt32
  split <;> omega

theorem ascii_a_txt : ascii "a.txt" = [97, 46, 116, 120, 116] := by decide

theorem ascii_b_txt : ascii "b.txt" = [98, 46, 116, 120, 116] := by decide

theorem ascii_sub : ascii "sub" = [115, 117, 98] := by decide

theorem ascii_sub_b_txt : ascii "sub/b.txt" = [115, 117, 98, 47, 98, 46, 116, 120, 116] := by
  decide

theorem ascii_hi : ascii "hi" = [104, 105] := by decide

theorem ascii_yo : ascii "yo" = [121, 111] := by decide

/-- C6: for the tree `root/{a.txt = "hi", sub/{b.txt = "yo"}}` in either
enumeration order of the root, for every digest that separates `a.txt` from
`sub`, every codec whose output for `hi` is shorter than `0xFFFFFFFF` bytes and
either setting of the compression flag, `package_create` writes
`block_count = 4`, and with fuel for the four records `package_lookup_file`
returns 1 for `a.txt`, 3 for `sub/b.txt` and 2 for `sub`; record 1 carries the
digest of `a.txt` and its size 2, record 3 the digest of `b.txt` and its size
2, and record 2 is a directory record with child count 1. -/
theorem concrete_scenario (XXH32 : Bytes → Nat → Nat) (LZ4_compress_default : Bytes → Bytes)
    (disable : Bool) (tree : Listing)
    (htree : tree = tree_a_sub ∨ tree = tree_sub_a)
    (hlen : (LZ4_compress_default (ascii "hi")).length < 4294967295)
    (hne : XXH32 (ascii "a.txt") 0 ≠ XXH32 (ascii "sub") 0) (k : Nat) :
    (package_create XXH32 LZ4_compress_default ⟨some tree, disable⟩).header.block_count = 4 ∧
    package_lookup_file XXH32 (4 + k)
      (package_create XXH32 LZ4_compress_default ⟨some tree, disable⟩).package
      (ascii "a.txt") = some (Lookup.ret 1) ∧
    (∃ size, (package_create XXH32 LZ4_compress_default ⟨some tree, disable⟩).table[1]? =
      some ⟨XXH32 (ascii "a.txt") 0, size, 2, 76⟩) ∧
    package_lookup_file XXH32 (4 + k)
      (package_create XXH32 LZ4_compress_default ⟨some tree, disable⟩).package
      (ascii "sub/b.txt") = some (Lookup.ret 3) ∧
    (∃ size offset, (package_create XXH32 LZ4_compress_default ⟨some tree, disable⟩).table[3]? =
      some ⟨XXH32 (ascii "b.txt") 0, size, 2, offset⟩) ∧
    package_lookup_file XXH32 (4 + k)
      (package_create XXH32 LZ4_compress_default ⟨some tree, disable⟩).package
      (ascii "sub") = some (Lookup.ret 2) ∧
    (package_create XXH32 LZ4_compress_default ⟨some tree, disable⟩).table[2]? =
      some ⟨XXH32 (ascii "sub") 0, UINT32_MAX, 1, 0⟩ := by
  have hmod : (LZ4_compress_default (ascii "hi")).length % 4294967296
      = (LZ4_compress_default (ascii "hi")).length := by omega
  rw [ascii_hi] at hlen hmod
  have htable : ∃ s1 s2 o2, s1 ≠ UINT32_MAX ∧
      (package_create XXH32 LZ4_compress_default ⟨some tree, disable⟩).table =
        [⟨0, UINT32_MAX, 2, 0⟩, ⟨XXH32 (ascii "a.txt") 0, s1, 2, 76⟩,
         ⟨XXH32 (ascii "sub") 0, UINT32_MAX, 1, 0⟩, ⟨XXH32 (ascii "b.txt") 0, s2, 2, o2⟩] ∧
      (package_create XXH32 LZ4_compress_default ⟨some tree, disable⟩).header.block_count = 4 := by
    rcases htree with rfl | rfl <;> cases disable <;>
      simp [package_create, count_directory_, count_directory_loop, package_create_loop,
        read_directory_, read_directory_files, read_directory_count, tree_a_sub, tree_sub_a,
        Archive.table, toInt32_emod, hmod, UINT32_MAX, ascii_hi, ascii_yo] <;> omega
  obtain ⟨s1, s2, o2, hs1, ht, hc⟩ := htable
  have e1 : ∀ p, package_lookup_file XXH32 4
        (package_create XXH32 LZ4_compress_default ⟨some tree, disable⟩).package p
      = package_lookup_file_loop XXH32
        [⟨0, UINT32_MAX, 2, 0⟩, ⟨XXH32 (ascii "a.txt") 0, s1, 2, 76⟩,
         ⟨XXH32 (ascii "sub") 0, UINT32_MAX, 1, 0⟩, ⟨XXH32 (ascii "b.txt") 0, s2, 2, o2⟩]
        4 4 1 p := by
    intro p
    simp [package_lookup_file, Archive.package, ht, hc, toInt32]
  refine ⟨hc, package_lookup_file_mono XXH32 _ _ 4 _ ?_ k, ⟨s1, by simp [ht]⟩,
    package_lookup_file_mono XXH32 _ _ 4 _ ?_ k, ⟨s2, o2, by simp [ht]⟩,
    package_lookup_file_mono XXH32 _ _ 4 _ ?_ k, by simp [ht]⟩
  · rw [e1]
    simp [package_lookup_file_loop, ascii_a_txt, length_until_delim, isDelim]
  · rw [e1]
    simp only [ascii_a_txt, ascii_sub, ascii_b_txt, ascii_sub_b_txt] at hne ⊢
    simp [package_lookup_file_loop, block_is_directory_, length_until_delim, isDelim, hne, hs1]
  · rw [e1]
    simp only [ascii_a_txt, ascii_sub, ascii_b_txt, ascii_sub_b_txt] at hne ⊢
    simp [package_lookup_file_loop, block_is_directory_, length_until_delim, isDelim, hne, hs1]

theorem concrete_scenario_witness :
    (tree_sub_a = tree_a_sub ∨ tree_sub_a = tree_sub_a) ∧
    (tag_compress (ascii "hi")).length < 4294967295 ∧
    XXH32_ref (ascii "a.txt") 0 ≠ XXH32_ref (ascii "sub") 0 ∧
    (package_create XXH32_ref tag_compress ⟨some tree_sub_a, false⟩).header.block_count = 4 ∧
    package_lookup_file XXH32_ref (4 + 0)
      (package_create XXH32_ref tag_compress ⟨some tree_sub_a, false⟩).package
      (ascii "a.txt") = some (Lookup.ret 1) ∧
    (∃ size, (package_create XXH32_ref tag_compress ⟨some tree_sub_a, false⟩).table[1]? =
      some ⟨XXH32_ref (ascii "a.txt") 0, size, 2, 76⟩) ∧
    package_lookup_file XXH32_ref (4 + 0)
      (package_create XXH32_ref tag_compress ⟨some tree_sub_a, false⟩).package
      (ascii "sub/b.txt") = some (Lookup.ret 3) ∧
    (∃ size offset, (package_create XXH32_ref tag_compress ⟨some tree_sub_a, false⟩).table[3]? =
      some ⟨XXH32_ref (ascii "b.txt") 0, size, 2, offset⟩) ∧
    package_lookup_file XXH32_ref (4 + 0)
      (package_create XXH32_ref tag_compress ⟨some tree_sub_a, false⟩).package
      (ascii "sub") = some (Lookup.ret 2) ∧
    (package_create XXH32_ref tag_compress ⟨some tree_sub_a, false⟩).table[2]? =
      some ⟨XXH32_ref (ascii "sub") 0, UINT32_MAX, 1, 0⟩ :=
  ⟨Or.inr rfl, by decide, by decide,
    concrete_scenario XXH32_ref tag_compress false tree_sub_a (Or.inr rfl) (by decide)
      (by decide) 0⟩

/-! ## C8: the block count -/

theorem count_directory_loop_fst (XXH32 : Bytes → Nat → Nat) (entries : Listing) :
    ∀ (path_buffer : Bytes) (count : Nat) (read_queue : List Directory_Read_),
      count < 4294967296 →
      (count_directory_loop XXH32 entries path_buffer count read_queue).1
        = (count + entries.block_total) % 4294967296 := by
  induction entries with
  | nil =>
    intro path count q hc
    simp only [count_directory_loop, Listing.block_total]
    omega
  | reg name data rest ih =>
    intro path count q hc
    simp only [count_directory_loop, Listing.block_total]
    rw [ih _ _ _ (Nat.mod_lt _ (by decide))]
    omega
  | dir name sub rest ihs ihr =>
    intro path count q hc
    simp only [count_directory_loop, Listing.block_total]
    rw [ihr _ _ _ (Nat.mod_lt _ (by decide)), ihs _ 1 _ (by decide)]
    omega
  | nodir name rest ih =>
    intro path count q hc
    simp only [count_directory_loop, Listing.block_total]
    rw [ih _ _ _ (Nat.mod_lt _ (by decide))]
    omega
  | other name rest ih =>
    intro path count q hc
    simp only [count_directory_loop, Listing.block_total]
    exact ih _ _ _ hc

theorem count_directory_fst (XXH32 : Bytes → Nat → Nat) (entries : Listing) (dir_hash : Nat)
    (read_queue : List Directory_Read_) :
    (count_directory_ XXH32 (some entries) dir_hash read_queue).1
      = (1 + entries.block_total) % 4294967296 := by
  simp only [count_directory_]
  exact count_directory_loop_fst XXH32 entries [] 1 _ (by decide)

theorem child_counts_mod (XXH32 : Bytes → Nat → Nat) (entries : Listing) :
    (1 + entries.child_counts XXH32) % 4294967296 = (1 + entries.block_total) % 4294967296 := by
  induction entries with
  | nil => rfl
  | reg name data rest ih =>
    simp only [Listing.child_counts, Listing.block_total]
    omega
  | dir name sub rest _ ih =>
    simp only [Listing.child_counts, Listing.block_total, count_directory_fst]
    omega
  | nodir name rest ih =>
    simp only [Listing.child_counts, Listing.block_total, count_directory_]
    omega
  | other name rest ih =>
    simp only [Listing.child_counts, Listing.block_total]
    exact ih

theorem block_total_of_plain (entries : Listing) :
    entries.plain → entries.block_total = entries.files + entries.subdirs := by
  induction entries with
  | nil => intro _; rfl
  | reg name data rest ih =>
    intro h
    simp only [Listing.block_total, Listing.files, Listing.subdirs, ih h]
    omega
  | dir name sub rest ihs ihr =>
    intro h
    simp only [Listing.block_total, Listing.files, Listing.subdirs, ihs h.1, ihr h.2]
    omega
  | nodir name rest _ => intro h; exact absurd h (by simp [Listing.plain])
  | other name rest _ => intro h; exact absurd h (by simp [Listing.plain])

theorem package_create_block_count (XXH32 : Bytes → Nat → Nat)
    (LZ4_compress_default : Bytes → Bytes) (entries : Listing) (disable : Bool) :
    (package_create XXH32 LZ4_compress_default ⟨some entries, disable⟩).header.block_count
      = (1 + entries.block_total) % 4294967296 := by
  simp only [package_create, count_directory_fst]
  omega

theorem many_files_plain (n : Nat) : (many_files n).plain := by
  induction n with
  | zero => simp only [many_files, Listing.plain]
  | succ n ih => simp only [many_files, Listing.plain]; exact ih

theorem many_files_files (n : Nat) : (many_files n).files = n := by
  induction n with
  | zero => simp only [many_files, Listing.files]
  | succ n ih => simp only [many_files, Listing.files, ih]; omega

theorem many_files_subdirs (n : Nat) : (many_files n).subdirs = 0 := by
  induction n with
  | zero => simp only [many_files, Listing.subdirs]
  | succ n ih => simp only [many_files, Listing.subdirs, ih]

attribute [irreducible] many_files

/-- C8 as stated fails on the code. A root directory that holds `2^32 - 1`
regular files and nothing else is a tree of listable directories and regular
files with `1 + files + subdirectories = 2^32`, and the `uint32_t` count that
`package_create` writes as `block_count` is 0. -/
theorem block_count_wraps_at_two_pow_32 :
    (many_files 4294967295).plain ∧
    1 + (many_files 4294967295).files + (many_files 4294967295).subdirs = 4294967296 ∧
    (package_create XXH32_ref tag_compress
      ⟨some (many_files 4294967295), false⟩).header.block_count = 0 := by
  refine ⟨many_files_plain _, ?_, ?_⟩
  · rw [many_files_files, many_files_subdirs]
  · rw [package_create_block_count, block_total_of_plain _ (many_files_plain _),
      many_files_files, many_files_subdirs]

/-- C8 as amended: for every source tree in which every directory can be
listed and every entry is a regular file or a directory, the `block_count`
that `package_create` writes is the value returned by the top-level
`count_directory_` call and equals 1 plus the number of files plus the number
of subdirectories anywhere in the tree, reduced modulo `2^32` (so it is that
number itself when that is below `2^32`); and `count_directory_` on the
directory returns, modulo `2^32`, 1 plus the sum of the recursive counts of its
direct children (1 per file). -/
theorem block_count_is_tree_size (XXH32 : Bytes → Nat → Nat)
    (LZ4_compress_default : Bytes → Bytes) (tree : Listing) (disable : Bool)
    (hplain : tree.plain) :
    (package_create XXH32 LZ4_compress_default ⟨some tree, disable⟩).header.block_count
      = (count_directory_ XXH32 (some tree) 0 []).1 ∧
    (package_create XXH32 LZ4_compress_default ⟨some tree, disable⟩).header.block_count
      = (1 + tree.files + tree.subdirs) % 4294967296 ∧
    (1 + tree.files + tree.subdirs < 4294967296 →
      (package_create XXH32 LZ4_compress_default ⟨some tree, disable⟩).header.block_count
        = 1 + tree.files + tree.subdirs) ∧
    ∀ (dir_hash : Nat) (read_queue : List Directory_Read_),
      (count_directory_ XXH32 (some tree) dir_hash read_queue).1
        = (1 + tree.child_counts XXH32) % 4294967296 := by
  have hb := package_create_block_count XXH32 LZ4_compress_default tree disable
  have hp := block_total_of_plain tree hplain
  refine ⟨?_, ?_, ?_, ?_⟩
  · rw [hb, count_directory_fst]
  · rw [hb, hp, Nat.add_assoc]
  · intro hlt
    rw [hb, hp, ← Nat.add_assoc]
    exact Nat.mod_eq_of_lt hlt
  · intro dir_hash read_queue
    rw [count_directory_fst, child_counts_mod]

theorem block_count_is_tree_size_witness :
    tree_shadow.plain ∧
    (package_create XXH32_ref tag_compress ⟨some tree_shadow, false⟩).header.block_count
      = (count_directory_ XXH32_ref (some tree_shadow) 0 []).1 ∧
    (package_create XXH32_ref tag_compress ⟨some tree_shadow, false⟩).header.block_count
      = (1 + tree_shadow.files + tree_shadow.subdirs) % 4294967296 ∧
    (1 + tree_shadow.files + tree_shadow.subdirs < 4294967296 →
      (package_create XXH32_ref tag_compress ⟨some tree_shadow, false⟩).header.block_count
        = 1 + tree_shadow.files + tree_shadow.subdirs) ∧
    ∀ (dir_hash : Nat) (read_queue : List Directory_Read_),
      (count_directory_ XXH32_ref (some tree_shadow) dir_hash read_queue).1
        = (1 + tree_shadow.child_counts XXH32_ref) % 4294967296 :=
  ⟨by decide, block_count_is_tree_size XXH32_ref tag_compress tree_shadow false (by decide)⟩

/-! ## C9: records of an archive written without compression -/

theorem count_directory_loop_snd (XXH32 : Bytes → Nat → Nat) (entries : Listing) :
    ∀ (path_buffer : Bytes) (count : Nat) (read_queue : List Directory_Read_),
      (count_directory_loop XXH32 entries path_buffer count read_queue).2
        = read_queue ++ entries.reads XXH32 path_buffer := by
  induction entries with
  | nil => intro path count q; simp only [count_directory_loop, Listing.reads, List.append_nil]
  | reg name data rest ih =>
    intro path count q; simp only [count_directory_loop, Listing.reads, ih]
  | dir name sub rest ihs ihr =>
    intro path count q
    simp only [count_directory_loop, Listing.reads, ihs, ihr, List.append_assoc,
      List.singleton_append, List.cons_append, List.nil_append]
  | nodir name rest ih =>
    intro path count q; simp only [count_directory_loop, Listing.reads, ih]
  | other name rest ih =>
    intro path count q; simp only [count_directory_loop, Listing.reads, ih]

theorem count_directory_snd (XXH32 : Bytes → Nat → Nat) (entries : Listing) (dir_hash : Nat)
    (read_queue : List Directory_Read_) :
    (count_directory_ XXH32 (some entries) dir_hash read_queue).2
      = read_queue ++ { hash := dir_hash, path := [], dir := entries }
        :: entries.reads XXH32 [] := by
  simp only [count_directory_, count_directory_loop_snd, List.append_assoc,
    List.singleton_append]

theorem direct_files_subset_all_files (entries : Listing) :
    ∀ f ∈ entries.direct_files, f ∈ entries.all_files := by
  induction entries with
  | nil => intro f h; exact h
  | reg name data rest ih =>
    intro f h
    simp only [Listing.direct_files, Listing.all_files, List.mem_cons] at h ⊢
    exact h.imp id (ih f)
  | dir name sub rest _ ih =>
    intro f h
    simp only [Listing.direct_files, Listing.all_files, List.mem_append] at h ⊢
    exact Or.inr (ih f h)
  | nodir name rest ih => exact ih
  | other name rest ih => exact ih

theorem reads_files_subset_all_files (XXH32 : Bytes → Nat → Nat) (entries : Listing) :
    ∀ (path : Bytes), ∀ read ∈ entries.reads XXH32 path,
      ∀ f ∈ read.dir.direct_files, f ∈ entries.all_files := by
  induction entries with
  | nil => intro path read h; simp only [Listing.reads, List.not_mem_nil] at h
  | reg name data rest ih =>
    intro path read h f hf
    simp only [Listing.reads, Listing.all_files, List.mem_cons] at h ⊢
    exact Or.inr (ih path read h f hf)
  | dir name sub rest ihs ihr =>
    intro path read h f hf
    simp only [Listing.reads, Listing.all_files, List.mem_cons, List.mem_append] at h ⊢
    rcases h with rfl | h | h
    · exact Or.inl (direct_files_subset_all_files sub f hf)
    · exact Or.inl (ihs _ read h f hf)
    · exact Or.inr (ihr _ read h f hf)
  | nodir name rest ih => exact ih
  | other name rest ih => exact ih

/-- A record written by the file loop of `read_directory_` without compression
belongs to a regular file of the directory: it carries the digest of its name,
its size modulo `2^32` twice and the low 32 bits of the position of its
payload, and the payload is the first `(size_t)(int)(uint32_t)size` bytes of the
file. -/
theorem mem_read_directory_files (XXH32 : Bytes → Nat → Nat)
    (LZ4_compress_default : Bytes → Bytes) (entries : Listing) :
    ∀ (data_offset : Nat) (w : Block_Write),
      w ∈ (read_directory_files XXH32 LZ4_compress_default false entries data_offset).1 →
      ∃ name data pos, (name, data) ∈ entries.direct_files ∧
        w.header = ⟨XXH32 name 0, data.length % 4294967296, data.length % 4294967296,
          pos % 4294967296⟩ ∧
        w.payload = some (pos,
          data.take (toInt32 data.length % 18446744073709551616).toNat) := by
  induction entries with
  | nil => intro off w h; simp only [read_directory_files, List.not_mem_nil] at h
  | reg name data rest ih =>
    intro off w h
    simp only [read_directory_files, List.mem_cons, Bool.false_eq_true, if_false] at h
    rcases h with rfl | h
    · refine ⟨name, data, off, ?_, ?_, rfl⟩
      · simp only [Listing.direct_files, List.mem_cons, true_or]
      · simp only [toInt32_emod]
    · obtain ⟨n, d, p, hm, hh, hp⟩ := ih _ w h
      exact ⟨n, d, p, by simp only [Listing.direct_files, List.mem_cons, hm, or_true], hh, hp⟩
  | dir name sub rest _ ih =>
    intro off w h
    exact ih off w (by simpa only [read_directory_files] using h)
  | nodir name rest ih =>
    intro off w h
    exact ih off w (by simpa only [read_directory_files] using h)
  | other name rest ih =>
    intro off w h
    exact ih off w (by simpa only [read_directory_files] using h)

theorem mem_package_create_loop (XXH32 : Bytes → Nat → Nat)
    (LZ4_compress_default : Bytes → Bytes) (compress : Bool) (read_queue : List Directory_Read_) :
    ∀ (data_offset : Nat) (w : Block_Write),
      w ∈ package_create_loop XXH32 LZ4_compress_default compress read_queue data_offset →
      ∃ read ∈ read_queue, ∃ off,
        w ∈ (read_directory_ XXH32 LZ4_compress_default read off compress).1 := by
  induction read_queue with
  | nil => intro off w h; simp only [package_create_loop, List.not_mem_nil] at h
  | cons read rest ih =>
    intro off w h
    simp only [package_create_loop, List.mem_append] at h
    rcases h with h | h
    · exact ⟨read, List.mem_cons_self _ _, off, h⟩
    · obtain ⟨r, hr, o, ho⟩ := ih _ w h
      exact ⟨r, List.mem_cons_of_mem _ hr, o, ho⟩

theorem toInt32_of_lt (n : Nat) (h : n < 2147483648) :
    (toInt32 n % 18446744073709551616).toNat = n := by
  unfold toInt32
  split <;> omega

/-- C9 as stated fails on the code. The tree `root/{big}`, where `big` is a
regular file of `2^32` bytes, is packed with compression disabled: the record
of `big` has both sizes 0 and the payload written for it is empty, while the
file holds `2^32` bytes. -/
theorem payload_of_four_gigabyte_file_is_empty :
    (tree_big 4294967296).all_files = [(ascii "big", List.replicate 4294967296 0)] ∧
    (List.replicate 4294967296 0 : Bytes).length = 4294967296 ∧
    (package_create XXH32_ref tag_compress ⟨some (tree_big 4294967296), true⟩).written =
      [⟨⟨0, UINT32_MAX, 1, 0⟩, none⟩,
       ⟨⟨XXH32_ref (ascii "big") 0, 0, 0, 44⟩, some (44, [])⟩] := by
  have h0 : toInt32 4294967296 = 0 := by decide
  refine ⟨?_, List.length_replicate _ _, ?_⟩
  · simp only [tree_big, Listing.all_files]
  · simp only [package_create, count_directory_, count_directory_loop, package_create_loop,
      read_directory_, read_directory_files, read_directory_count, tree_big,
      List.length_replicate, h0, Bool.not_true, Bool.false_eq_true, if_false, List.nil_append,
      List.append_nil, List.singleton_append]
    decide

/-- C9 as amended: for every source tree packed by `package_create` with
`disable_compression` set, every file record of the written block table
belongs to a regular file of the tree, carries the digest of its name, and has
`compressed_size` equal to `uncompressed_size`, both equal to the file's size
modulo `2^32`; and when the file is shorter than `2^31` bytes the payload
stored for the record is the file's original bytes. -/
theorem uncompressed_records (XXH32 : Bytes → Nat → Nat)
    (LZ4_compress_default : Bytes → Bytes) (tree : Listing) (w : Block_Write) (pos : Nat)
    (bytes : Bytes)
    (hw : w ∈ (package_create XXH32 LZ4_compress_default ⟨some tree, true⟩).written)
    (hp : w.payload = some (pos, bytes)) :
    ∃ name data, (name, data) ∈ tree.all_files ∧
      w.header.hash = XXH32 name 0 ∧
      w.header.compressed_size = w.header.uncompressed_size ∧
      w.header.uncompressed_size = data.length % 4294967296 ∧
      w.header.offset = pos % 4294967296 ∧
      (data.length < 2147483648 → bytes = data) := by
  simp only [package_create, Bool.not_true] at hw
  obtain ⟨read, hread, off, hmem⟩ := mem_package_create_loop _ _ _ _ _ _ hw
  simp only [read_directory_, List.mem_cons] at hmem
  rcases hmem with rfl | hmem
  · simp only [reduceCtorEq] at hp
  · obtain ⟨name, data, p, hf, hh, hpay⟩ := mem_read_directory_files _ _ _ _ _ hmem
    rw [hpay] at hp
    simp only [Option.some.injEq, Prod.mk.injEq] at hp
    obtain ⟨rfl, rfl⟩ := hp
    refine ⟨name, data, ?_, by rw [hh], by rw [hh], by rw [hh], by rw [hh], ?_⟩
    · rw [count_directory_snd] at hread
      simp only [List.nil_append, List.mem_cons] at hread
      rcases hread with rfl | hread
      · exact direct_files_subset_all_files _ _ hf
      · exact reads_files_subset_all_files XXH32 tree [] read hread _ hf
    · intro hlt
      rw [toInt32_of_lt _ hlt, List.take_length]

theorem uncompressed_records_witness :
    (⟨⟨XXH32_ref (ascii "b.txt") 0, 2, 2, 78⟩, some (78, ascii "yo")⟩ : Block_Write)
      ∈ (package_create XXH32_ref tag_compress ⟨some tree_a_sub, true⟩).written ∧
    ∃ name data, (name, data) ∈ tree_a_sub.all_files ∧
      XXH32_ref (ascii "b.txt") 0 = XXH32_ref name 0 ∧
      2 = 2 ∧
      2 = data.length % 4294967296 ∧
      78 = 78 % 4294967296 ∧
      (data.length < 2147483648 → ascii "yo" = data) :=
  ⟨by decide,
    uncompressed_records XXH32_ref tag_compress tree_a_sub
      ⟨⟨XXH32_ref (ascii "b.txt") 0, 2, 2, 78⟩, some (78, ascii "yo")⟩ 78 (ascii "yo")
      (by decide) rfl⟩

/-! ## C10: the two delimiters are interchangeable -/

theorem DelimEq.isDelim_iff {a b : Nat} (h : a = b ∨ (isDelim a ∧ isDelim b)) :
    isDelim a ↔ isDelim b := by
  rcases h with rfl | ⟨ha, hb⟩
  · exact Iff.rfl
  · exact ⟨fun _ => hb, fun _ => ha⟩

theorem DelimEq.nil_iff : ∀ {p q : Bytes}, DelimEq p q → (p = [] ↔ q = [])
  | [], [], _ => Iff.rfl
  | _ :: _, _ :: _, _ => by simp only [reduceCtorEq]
  | [], _ :: _, h => by simp only [DelimEq] at h
  | _ :: _, [], h => by simp only [DelimEq] at h

theorem DelimEq.length_until_delim : ∀ {p q : Bytes}, DelimEq p q →
    length_until_delim p = length_until_delim q
  | [], [], _ => rfl
  | a :: p, b :: q, h => by
    simp only [DelimEq] at h
    have hd := DelimEq.isDelim_iff h.1
    simp only [AssetPacker.length_until_delim, hd, DelimEq.length_until_delim h.2]
  | [], _ :: _, h => by simp only [DelimEq] at h
  | _ :: _, [], h => by simp only [DelimEq] at h

theorem DelimEq.drop : ∀ (n : Nat) {p q : Bytes}, DelimEq p q →
    DelimEq (p.drop n) (q.drop n)
  | 0, _, _, h => h
  | _ + 1, [], [], _ => by simp only [List.drop_nil, DelimEq]
  | n + 1, _ :: p, _ :: q, h => by
    simp only [DelimEq] at h
    simpa only [List.drop_succ_cons] using DelimEq.drop n h.2
  | _ + 1, [], _ :: _, h => by simp only [DelimEq] at h
  | _ + 1, _ :: _, [], h => by simp only [DelimEq] at h

/-- The bytes of the first segment are the same in both paths. -/
theorem DelimEq.take_segment : ∀ {p q : Bytes}, DelimEq p q →
    p.take (AssetPacker.length_until_delim p) = q.take (AssetPacker.length_until_delim q)
  | [], [], _ => rfl
  | a :: p, b :: q, h => by
    simp only [DelimEq] at h
    have hd := DelimEq.isDelim_iff h.1
    by_cases hb : isDelim b
    · simp only [AssetPacker.length_until_delim, hd, hb, if_true, List.take_zero]
    · have hab : a = b := by
        rcases h.1 with e | ⟨_, e⟩
        · exact e
        · exact absurd e hb
      simp only [AssetPacker.length_until_delim, hd, hb, if_false, List.take_succ_cons, hab,
        DelimEq.take_segment h.2]
  | [], _ :: _, h => by simp only [DelimEq] at h
  | _ :: _, [], h => by simp only [DelimEq] at h

theorem package_lookup_file_loop_delim (XXH32 : Bytes → Nat → Nat)
    (blocks : List Block_Header_) (count : Int) :
    ∀ (fuel : Nat) (i : Int) (p q : Bytes), DelimEq p q →
      package_lookup_file_loop XXH32 blocks count fuel i p
        = package_lookup_file_loop XXH32 blocks count fuel i q := by
  intro fuel
  induction fuel with
  | zero => intro i p q _; rfl
  | succ n ih =>
    intro i p q h
    have hl := DelimEq.length_until_delim h
    have ht := DelimEq.take_segment h
    have hn := DelimEq.nil_iff (DelimEq.drop (length_until_delim p) h)
    have hd : package_lookup_file_loop XXH32 blocks count n (i + 1)
          (List.drop (length_until_delim p + 1) p)
        = package_lookup_file_loop XXH32 blocks count n (i + 1)
          (List.drop (length_until_delim q + 1) q) := by
      rw [ih _ _ _ (DelimEq.drop (length_until_delim p + 1) h), hl]
    rw [hl] at hn
    have hnd : (List.drop (length_until_delim p) p = [])
        = (List.drop (length_until_delim q) q = []) := by
      rw [hl]; exact propext hn
    rw [package_lookup_file_loop, package_lookup_file_loop]
    simp only [ht, hnd, hd, ih _ _ _ h]

theorem package_get_path_depth_loop_delim : ∀ (p q : Bytes) (depth e : Int), DelimEq p q →
    package_get_path_depth_loop p depth e = package_get_path_depth_loop q depth e
  | [], [], _, _, _ => rfl
  | a :: p, b :: q, depth, e, h => by
    simp only [DelimEq] at h
    have hd := DelimEq.isDelim_iff h.1
    have hn : (p = []) = (q = []) := propext (DelimEq.nil_iff h.2)
    simp only [package_get_path_depth_loop, hd, hn,
      package_get_path_depth_loop_delim p q _ _ h.2]
  | [], _ :: _, _, _, h => by simp only [DelimEq] at h
  | _ :: _, [], _, _, h => by simp only [DelimEq] at h

/-- C10: when two paths differ only in which of `/` and `\` stands at some
delimiter positions, `package_lookup_file` gives the same result for both, for
every digest, every block table and every amount of fuel, and
`package_get_path_depth` gives the same depth. -/
theorem delimiters_are_interchangeable (XXH32 : Bytes → Nat → Nat) (fuel : Nat)
    (package : Package) (p q : Bytes) (h : DelimEq p q) :
    package_lookup_file XXH32 fuel package p = package_lookup_file XXH32 fuel package q ∧
    package_get_path_depth p = package_get_path_depth q :=
  ⟨package_lookup_file_loop_delim XXH32 _ _ fuel 1 p q h,
    package_get_path_depth_loop_delim p q 0 0 h⟩

theorem delimiters_are_interchangeable_witness :
    DelimEq (ascii "sub/b.txt") (ascii "sub\\b.txt") ∧
    package_lookup_file XXH32_ref 4
        (package_create XXH32_ref tag_compress ⟨some tree_a_sub, false⟩).package
        (ascii "sub/b.txt")
      = package_lookup_file XXH32_ref 4
        (package_create XXH32_ref tag_compress ⟨some tree_a_sub, false⟩).package
        (ascii "sub\\b.txt") ∧
    package_get_path_depth (ascii "sub/b.txt") = package_get_path_depth (ascii "sub\\b.txt") :=
  ⟨by simp [DelimEq, ascii, isDelim],
    delimiters_are_interchangeable XXH32_ref 4
      (package_create XXH32_ref tag_compress ⟨some tree_a_sub, false⟩).package
      (ascii "sub/b.txt") (ascii "sub\\b.txt") (by simp [DelimEq, ascii, isDelim])⟩

/-! ## C12: `package_open` on a file with another magic -/

/-- C12 as stated fails on the code. The file of the three bytes `.dh` does not
begin with the four bytes `.dhm`. `fread` fills three bytes of the local
`header` and leaves the others as they were, and its result is not looked at:
when the fourth byte of that memory holds `m`, the comparison with `PKG_MAGIC`
succeeds, and `package_open` returns 0 and stores the file, an empty table and
the block count found in the stale bytes in the caller's `Package`. -/
theorem package_open_accepts_truncated_magic :
    (ascii ".dh").take 4 ≠ ascii ".dhm" ∧
    package_open (some (ascii ".dh")) [0, 0, 0, 109, 0, 0, 0, 0, 0, 0, 0, 0] [] ⟨[1], [], 7⟩
      = (0, ⟨ascii ".dh", [], 0⟩) := by
  decide

/-- C12 as amended: for every input file of at least four bytes whose first four
bytes are not `.dhm`, whatever the previous contents of the memory
`package_open` reads into, `package_open` returns -1, which is not 0, and the
caller's `Package` is what it was before the call. -/
theorem package_open_rejects_other_magic (file stack heap : Bytes) (out : Package)
    (hlen : 4 ≤ file.length) (hbytes : ∀ b ∈ file.take 4, b < 256)
    (hmagic : file.take 4 ≠ ascii ".dhm") :
    package_open (some file) stack heap out = (-1, out) ∧
    (package_open (some file) stack heap out).1 ≠ 0 := by
  have hm : ascii ".dhm" = [46, 100, 104, 109] := by decide
  rw [hm] at hmagic
  match file, hlen, hbytes, hmagic with
  | a :: b :: c :: d :: rest, _, hbytes, hmagic =>
    have ha : a < 256 := hbytes a (by simp)
    have hb : b < 256 := hbytes b (by simp)
    have hc : c < 256 := hbytes c (by simp)
    have hd : d < 256 := hbytes d (by simp)
    have hne : read_le32 (fread_into stack (a :: b :: c :: d :: rest) 0 12) 0 ≠ PKG_MAGIC := by
      simp only [read_le32, fread_into, List.drop_zero, List.take_succ_cons, List.cons_append,
        List.getD_cons_zero, List.getD_cons_succ, PKG_MAGIC]
      intro h
      apply hmagic
      simp only [List.take_succ_cons, List.take_zero]
      have h1 : a = 46 := by omega
      have h2 : b = 100 := by omega
      have h3 : c = 104 := by omega
      have h4 : d = 109 := by omega
      rw [h1, h2, h3, h4]
    simp only [package_open, hne, ne_eq, not_false_eq_true, if_true]
    exact ⟨trivial, by decide⟩

theorem package_open_rejects_other_magic_witness :
    4 ≤ (ascii "PK34 and more").length ∧
    (∀ b ∈ (ascii "PK34 and more").take 4, b < 256) ∧
    (ascii "PK34 and more").take 4 ≠ ascii ".dhm" ∧
    package_open (some (ascii "PK34 and more")) [] [] ⟨[1], [], 7⟩ = (-1, ⟨[1], [], 7⟩) ∧
    (package_open (some (ascii "PK34 and more")) [] [] ⟨[1], [], 7⟩).1 ≠ 0 :=
  ⟨by decide, by decide, by decide,
    package_open_rejects_other_magic (ascii "PK34 and more") [] [] ⟨[1], [], 7⟩ (by decide)
      (by decide) (by decide)⟩

/-! ## C20: what `package_get_path_depth` computes -/

theorem segments_ne_nil (p : Bytes) : segments p ≠ [] := by
  cases p with
  | nil => simp [segments]
  | cons c p =>
    simp only [segments]
    split
    · simp
    · split <;> simp

theorem segments_length_pos (p : Bytes) : 1 ≤ (segments p).length := by
  have := segments_ne_nil p
  cases h : segments p with
  | nil => exact absurd h this
  | cons _ _ => simp

/-- A path without delimiter is its own single segment. -/
theorem segments_of_no_delim (p : Bytes) (h : ∀ c ∈ p, ¬ isDelim c) : segments p = [p] := by
  induction p with
  | nil => rfl
  | cons c p ih =>
    have hc : ¬ isDelim c := h c (List.mem_cons_self _ _)
    have hp := ih (fun x hx => h x (List.mem_cons_of_mem _ hx))
    simp only [segments, hc, if_false, hp]

theorem no_delim_of_segments_length_one (p : Bytes) (h : (segments p).length = 1) :
    ∀ c ∈ p, ¬ isDelim c := by
  induction p with
  | nil => intro c hc; simp at hc
  | cons a p ih =>
    by_cases ha : isDelim a
    · simp only [segments, ha, if_true, List.length_cons] at h
      have := segments_length_pos p
      omega
    · simp only [segments, ha, if_false] at h
      have hp : (segments p).length = 1 := by
        cases hs : segments p with
        | nil => exact absurd hs (segments_ne_nil p)
        | cons s rest => rw [hs] at h; simpa using h
      intro c hc
      rcases List.mem_cons.1 hc with rfl | hc
      · exact ha
      · exact ih hp c hc

/-- The value of the depth loop: the delimiters of the path are counted, and 1
is added when the last delimiter is followed by a character; a path without
delimiter leaves `e` as it was. -/
theorem package_get_path_depth_loop_eq (p : Bytes) : ∀ (depth e : Int),
    package_get_path_depth_loop p depth e
      = depth + (((segments p).length : Int) - 1)
        + (if (segments p).length = 1 then e
           else if (segments p).getLast? = some [] then 0 else 1) := by
  induction p with
  | nil => intro depth e; simp [package_get_path_depth_loop, segments]
  | cons c p ih =>
    intro depth e
    by_cases hc : isDelim c
    · simp only [package_get_path_depth_loop, hc, if_true, segments, List.length_cons]
      rw [ih]
      have hpos := segments_length_pos p
      have hne := segments_ne_nil p
      have hlast : ([] :: segments p).getLast? = (segments p).getLast? := by
        cases hs : segments p with
        | nil => exact absurd hs hne
        | cons s rest => simp [List.getLast?_cons_cons]
      rw [hlast]
      have h1 : ¬ ((segments p).length + 1 = 1) := by omega
      simp only [h1, if_false]
      by_cases hone : (segments p).length = 1
      · have hseg := segments_of_no_delim p (no_delim_of_segments_length_one p hone)
        simp only [hone, if_true, hseg, List.getLast?_singleton, Option.some.injEq]
        by_cases hp : p = []
        · simp [hp]
        · simp [hp]
      · simp only [hone, if_false]
        push_cast
        ring
    · simp only [package_get_path_depth_loop, hc, if_false, segments]
      rw [ih]
      cases hs : segments p with
      | nil => exact absurd hs (segments_ne_nil p)
      | cons s rest =>
        cases rest with
        | nil => simp
        | cons t rest => simp [List.getLast?_cons_cons]

/-- C20: for a path of `k >= 2` segments, none of them empty,
`package_get_path_depth` returns `k`, and it returns `k` as well when one
delimiter follows the last of the `k` segments; for a path without any
delimiter it returns 0. -/
theorem path_depth_counts_segments (path : Bytes) :
    (∀ k : Nat, 2 ≤ k → (segments path).length = k → (∀ s ∈ segments path, s ≠ []) →
      package_get_path_depth path = k) ∧
    (∀ k : Nat, 2 ≤ k →
      (∃ segs, segments path = segs ++ [[]] ∧ segs.length = k ∧ ∀ s ∈ segs, s ≠ []) →
      package_get_path_depth path = k) ∧
    ((∀ c ∈ path, ¬ isDelim c) → package_get_path_depth path = 0) := by
  refine ⟨?_, ?_, ?_⟩
  · intro k hk hlen hne
    have h1 : ¬ ((segments path).length = 1) := by omega
    have hlast : ¬ ((segments path).getLast? = some []) := by
      intro h
      exact hne [] (List.mem_of_getLast?_eq_some h) rfl
    rw [package_get_path_depth, package_get_path_depth_loop_eq]
    simp only [h1, hlast, if_false, hlen]
    omega
  · intro k hk h
    obtain ⟨segs, hs, hlen, _⟩ := h
    have h1 : ¬ ((segs ++ [[]]).length = 1) := by
      rw [List.length_append, List.length_singleton]; omega
    have hlast : (segs ++ [[]]).getLast? = some ([] : Bytes) := by
      simp
    rw [package_get_path_depth, package_get_path_depth_loop_eq, hs]
    simp only [h1, if_false, hlast, if_true, List.length_append, List.length_singleton, hlen]
    push_cast
    omega
  · intro h
    rw [package_get_path_depth, package_get_path_depth_loop_eq, segments_of_no_delim path h]
    simp

theorem path_depth_counts_segments_witness :
    package_get_path_depth (ascii "a/b\\c") = 3 ∧
    package_get_path_depth (ascii "a/b\\c/") = 3 ∧
    package_get_path_depth (ascii "abc") = 0 :=
  ⟨(path_depth_counts_segments (ascii "a/b\\c")).1 3 (by decide) (by decide) (by decide),
    (path_depth_counts_segments (ascii "a/b\\c/")).2.1 3 (by decide)
      ⟨[ascii "a", ascii "b", ascii "c"], by decide, by decide, by decide⟩,
    (path_depth_counts_segments (ascii "abc")).2.2 (by decide)⟩

/-! ## C11, C17: the resolver on an arbitrary table -/

theorem toInt32_of_lt_int (n : Nat) (h : n < 2147483648) : toInt32 n = (n : Int) := by
  unfold toInt32
  split <;> omega

theorem toInt32_le (n : Nat) : toInt32 n ≤ (n : Int) := by
  unfold toInt32
  split <;> omega

/-- One induction for the resolver on a table without index overflow, started at
an index `i >= 1`: a returned index lies in `i .. count - 1`, every index read
does, the indices read increase strictly, and the loop returns once the fuel
exceeds `count - i`. -/
theorem package_lookup_file_loop_bounded (XXH32 : Bytes → Nat → Nat)
    (blocks : List Block_Header_) (count : Int) (hcount : count ≤ blocks.length)
    (hno : Index_No_Overflow blocks) :
    ∀ (fuel : Nat) (i : Int) (path : Bytes), 1 ≤ i →
      (∀ r, package_lookup_file_loop XXH32 blocks count fuel i path = some r →
        r = Lookup.ret (-1) ∨ ∃ j, r = Lookup.ret j ∧ i ≤ j ∧ j < count) ∧
      (∀ j ∈ package_lookup_file_reads XXH32 blocks count fuel i path, i ≤ j ∧ j < count) ∧
      (package_lookup_file_reads XXH32 blocks count fuel i path).Pairwise (· < ·) ∧
      (0 < fuel → count - i < fuel →
        ∃ r, package_lookup_file_loop XXH32 blocks count fuel i path = some r ∧
          r ≠ Lookup.fault) := by
  intro fuel
  induction fuel with
  | zero =>
    intro i path hi
    refine ⟨?_, ?_, ?_, ?_⟩
    · intro r h; simp [package_lookup_file_loop] at h
    · intro j h; simp [package_lookup_file_reads] at h
    · simp [package_lookup_file_reads]
    · intro h
      exact absurd h (by decide)
  | succ n ih =>
    intro i path hi
    rw [package_lookup_file_loop, package_lookup_file_reads]
    by_cases h1 : i < count
    · have h2 : ¬ i < 0 := by omega
      have hlt : i.toNat < blocks.length := by omega
      have hb : blocks[i.toNat]? = some blocks[i.toNat] := List.getElem?_eq_getElem hlt
      generalize blocks[i.toNat] = block at hb
      simp only [h1, if_true, h2, if_false, hb]
      -- consequences of the induction hypothesis at a later index
      have later : ∀ (i' : Int) (p : Bytes), i < i' →
          (∀ r, package_lookup_file_loop XXH32 blocks count n i' p = some r →
            r = Lookup.ret (-1) ∨ ∃ j, r = Lookup.ret j ∧ i ≤ j ∧ j < count) ∧
          (∀ j ∈ i :: package_lookup_file_reads XXH32 blocks count n i' p, i ≤ j ∧ j < count) ∧
          (i :: package_lookup_file_reads XXH32 blocks count n i' p).Pairwise (· < ·) ∧
          (0 < n + 1 → count - i < n + 1 →
            ∃ r, package_lookup_file_loop XXH32 blocks count n i' p = some r ∧
              r ≠ Lookup.fault) := by
        intro i' p hlt'
        obtain ⟨a, b, c, d⟩ := ih i' p (by omega)
        refine ⟨?_, ?_, ?_, ?_⟩
        · intro r hr
          rcases a r hr with h | ⟨j, hj, hj1, hj2⟩
          · exact Or.inl h
          · exact Or.inr ⟨j, hj, by omega, hj2⟩
        · intro j hj
          rcases List.mem_cons.1 hj with rfl | hj
          · exact ⟨le_refl _, h1⟩
          · have := b j hj
            exact ⟨by omega, this.2⟩
        · rw [List.pairwise_cons]
          exact ⟨fun j hj => by have := b j hj; omega, c⟩
        · intro _ hf
          exact d (by omega) (by omega)
      by_cases h3 : block.hash = XXH32 (List.take (length_until_delim path) path) 0 ∧
          List.drop (length_until_delim path) path = []
      · simp only [h3, and_self, if_true]
        refine ⟨?_, ?_, ?_, ?_⟩
        · intro r hr
          simp only [Option.some.injEq] at hr
          exact Or.inr ⟨i, hr.symm, le_refl _, h1⟩
        · intro j hj
          simp only [List.mem_singleton] at hj
          subst hj
          exact ⟨le_refl _, h1⟩
        · simp
        · intro _ _
          exact ⟨_, rfl, by simp⟩
      · simp only [h3, if_false]
        by_cases h4 : block.hash = XXH32 (List.take (length_until_delim path) path) 0
        · simp only [h4, if_true]
          exact later _ _ (by omega)
        · simp only [h4, if_false]
          cases h5 : block_is_directory_ block with
          | true =>
            have hov := hno i.toNat block hb h5
            have hj : toInt32 (i.toNat + block.uncompressed_size)
                = ((i.toNat + block.uncompressed_size : Nat) : Int) :=
              toInt32_of_lt_int _ (by omega)
            have h6 : ¬ toInt32 (i.toNat + block.uncompressed_size) = 2147483647 := by
              rw [hj]; omega
            simp only [if_true, h6, if_false]
            exact later _ _ (by rw [hj]; omega)
          | false =>
            simp only [Bool.false_eq_true, if_false]
            exact later _ _ (by omega)
    · simp only [h1, if_false]
      refine ⟨?_, ?_, ?_, ?_⟩
      · intro r hr
        simp only [Option.some.injEq] at hr
        exact Or.inl hr.symm
      · intro j hj; simp at hj
      · simp
      · intro _ _
        exact ⟨_, rfl, by simp⟩

/-- C11 as stated fails on the code. In a table of two records whose record 1 is
a directory record with child count `0xFFFFFFFE`, a mismatch at index 1 makes
`i += uncompressed_size; ++i` arrive at index 0: the resolver reads record 0
and, as its hash matches the path, returns 0. With child count `0xFFFFFFFA` it
arrives at index -4, outside the table. -/
theorem lookup_reads_and_returns_record_zero :
    package_lookup_file XXH32_ref 2
      ⟨[], [⟨XXH32_ref (ascii "a") 0, 0, 0, 0⟩, ⟨0, UINT32_MAX, 4294967294, 0⟩], 2⟩ (ascii "a")
      = some (Lookup.ret 0) ∧
    package_lookup_file_reads XXH32_ref
      [⟨XXH32_ref (ascii "a") 0, 0, 0, 0⟩, ⟨0, UINT32_MAX, 4294967294, 0⟩] (toInt32 2) 2 1
      (ascii "a") = [1, 0] ∧
    package_lookup_file_reads XXH32_ref
      [⟨XXH32_ref (ascii "a") 0, 0, 0, 0⟩, ⟨0, UINT32_MAX, 4294967290, 0⟩] (toInt32 2) 2 1
      (ascii "a") = [1, -4] := by
  decide

/-- C11 as amended: for every block table of `N` records on which the index
arithmetic does not overflow, every path and every amount of fuel,
`package_lookup_file` returns either -1 or an index `i` with `1 <= i < N`, and
every table index it reads lies in `1 .. N-1`: record 0 is never examined or
returned. -/
theorem lookup_stays_inside_table (XXH32 : Bytes → Nat → Nat) (package : Package)
    (path : Bytes) (fuel : Nat)
    (hlen : package.blocks.length = package.block_count)
    (hno : Index_No_Overflow package.blocks) :
    (∀ r, package_lookup_file XXH32 fuel package path = some r →
      r = Lookup.ret (-1) ∨ ∃ i : Int, r = Lookup.ret i ∧ 1 ≤ i ∧ i < package.block_count) ∧
    ∀ j ∈ package_lookup_file_reads XXH32 package.blocks (toInt32 package.block_count) fuel 1
        path, 1 ≤ j ∧ j < package.block_count := by
  have hcount : toInt32 package.block_count ≤ (package.blocks.length : Int) := by
    rw [hlen]; exact toInt32_le _
  obtain ⟨a, b, _, _⟩ :=
    package_lookup_file_loop_bounded XXH32 package.blocks _ hcount hno fuel 1 path (le_refl _)
  have hc := toInt32_le package.block_count
  refine ⟨?_, ?_⟩
  · intro r hr
    rcases a r hr with h | ⟨j, hj, h1, h2⟩
    · exact Or.inl h
    · exact Or.inr ⟨j, hj, h1, by omega⟩
  · intro j hj
    have := b j hj
    exact ⟨this.1, by omega⟩

theorem lookup_stays_inside_table_witness :
    (package_create XXH32_ref tag_compress ⟨some tree_shadow, false⟩).package.blocks.length
      = (package_create XXH32_ref tag_compress ⟨some tree_shadow, false⟩).package.block_count ∧
    Index_No_Overflow (package_create XXH32_ref tag_compress ⟨some tree_shadow, false⟩).package.blocks ∧
    (∀ r, package_lookup_file XXH32_ref 6
        (package_create XXH32_ref tag_compress ⟨some tree_shadow, false⟩).package (ascii "d/f")
        = some r →
      r = Lookup.ret (-1) ∨ ∃ i : Int, r = Lookup.ret i ∧ 1 ≤ i ∧
        i < (package_create XXH32_ref tag_compress ⟨some tree_shadow, false⟩).package.block_count) ∧
    ∀ j ∈ package_lookup_file_reads XXH32_ref
        (package_create XXH32_ref tag_compress ⟨some tree_shadow, false⟩).package.blocks
        (toInt32 (package_create XXH32_ref tag_compress ⟨some tree_shadow, false⟩).package.block_count)
        6 1 (ascii "d/f"),
      1 ≤ j ∧
        j < (package_create XXH32_ref tag_compress ⟨some tree_shadow, false⟩).package.block_count :=
  have hno : Index_No_Overflow
      (package_create XXH32_ref tag_compress ⟨some tree_shadow, false⟩).package.blocks := by
    intro i b hb hd
    have hl : i < 6 := by
      have := (List.getElem?_eq_some_iff.1 hb).1
      simpa using this
    have hmem : b ∈ (package_create XXH32_ref tag_compress ⟨some tree_shadow, false⟩).package.blocks :=
      List.getElem?_mem hb
    have hall : ∀ x ∈ (package_create XXH32_ref tag_compress
        ⟨some tree_shadow, false⟩).package.blocks, x.uncompressed_size ≤ 2 := by decide
    have := hall b hmem
    omega
  ⟨by decide, hno,
    lookup_stays_inside_table XXH32_ref
      (package_create XXH32_ref tag_compress ⟨some tree_shadow, false⟩).package (ascii "d/f") 6
      (by decide) hno⟩

/-- C17 as stated fails on the code. In a table of two records whose record 1 is
a directory record with child count `0xFFFFFFFF`, a mismatch at index 1 makes
`i += uncompressed_size; ++i` arrive at index 1 again: the loop never returns,
whatever the fuel, and the index it examines does not increase. -/
theorem lookup_loops_on_child_count_max :
    (∀ fuel, package_lookup_file XXH32_ref fuel
      ⟨[], [⟨0, UINT32_MAX, 1, 0⟩, ⟨0, UINT32_MAX, 4294967295, 0⟩], 2⟩ (ascii "a") = none) ∧
    package_lookup_file_reads XXH32_ref
      [⟨0, UINT32_MAX, 1, 0⟩, ⟨0, UINT32_MAX, 4294967295, 0⟩] (toInt32 2) 3 1 (ascii "a")
      = [1, 1, 1] := by
  refine ⟨?_, by decide⟩
  have hb : ([⟨0, UINT32_MAX, 1, 0⟩, ⟨0, UINT32_MAX, 4294967295, 0⟩] :
      List Block_Header_)[(1 : Int).toNat]? = some ⟨0, UINT32_MAX, 4294967295, 0⟩ := by decide
  have hc : (1 : Int) < toInt32 2 := by decide
  have hh : ¬ ((0 : Nat) = XXH32_ref (List.take (length_until_delim (ascii "a")) (ascii "a")) 0) := by
    decide
  have hj : toInt32 ((1 : Int).toNat + 4294967295) + 1 = 1 := by decide
  have hm : ¬ (toInt32 ((1 : Int).toNat + 4294967295) = 2147483647) := by decide
  have hd : block_is_directory_ ⟨0, UINT32_MAX, 4294967295, 0⟩ = true := by decide
  intro fuel
  induction fuel with
  | zero => rfl
  | succ n ih =>
    rw [package_lookup_file] at ih ⊢
    rw [package_lookup_file_loop]
    simp only [hc, if_true, show ¬ ((1 : Int) < 0) by decide, if_false, hb, hh, false_and, hd,
      hm, hj]
    exact ih

/-- C17 as amended: for every block table of `N` records on which the index
arithmetic does not overflow and every path, `package_lookup_file` terminates
within `N` iterations: with fuel for them it returns, the result being an index
in `1 .. N-1` or -1, and the indices it examines increase strictly from one
iteration to the next. -/
theorem lookup_terminates (XXH32 : Bytes → Nat → Nat) (package : Package)
    (path : Bytes) (fuel : Nat)
    (hlen : package.blocks.length = package.block_count)
    (hno : Index_No_Overflow package.blocks)
    (hfuel : package.block_count ≤ fuel) (hpos : 0 < fuel) :
    (∃ r, package_lookup_file XXH32 fuel package path = some r ∧
      (r = Lookup.ret (-1) ∨ ∃ i : Int, r = Lookup.ret i ∧ 1 ≤ i ∧ i < package.block_count)) ∧
    (package_lookup_file_reads XXH32 package.blocks (toInt32 package.block_count) fuel 1
      path).Pairwise (· < ·) := by
  have hcount : toInt32 package.block_count ≤ (package.blocks.length : Int) := by
    rw [hlen]; exact toInt32_le _
  obtain ⟨a, _, c, d⟩ :=
    package_lookup_file_loop_bounded XXH32 package.blocks _ hcount hno fuel 1 path (le_refl _)
  have hc := toInt32_le package.block_count
  obtain ⟨r, hr, _⟩ := d hpos (by omega)
  refine ⟨⟨r, hr, ?_⟩, c⟩
  rcases a r hr with h | ⟨j, hj, h1, h2⟩
  · exact Or.inl h
  · exact Or.inr ⟨j, hj, h1, by omega⟩

theorem lookup_terminates_witness :
    (⟨[], [⟨0, UINT32_MAX, 2, 0⟩, ⟨5, UINT32_MAX, 1, 0⟩, ⟨6, 3, 3, 60⟩, ⟨7, 0, 0, 63⟩], 4⟩ :
      Package).blocks.length = 4 ∧
    Index_No_Overflow [⟨0, UINT32_MAX, 2, 0⟩, ⟨5, UINT32_MAX, 1, 0⟩, ⟨6, 3, 3, 60⟩, ⟨7, 0, 0, 63⟩] ∧
    (∃ r, package_lookup_file XXH32_ref 4
        ⟨[], [⟨0, UINT32_MAX, 2, 0⟩, ⟨5, UINT32_MAX, 1, 0⟩, ⟨6, 3, 3, 60⟩, ⟨7, 0, 0, 63⟩], 4⟩
        (ascii "a") = some r ∧
      (r = Lookup.ret (-1) ∨ ∃ i : Int, r = Lookup.ret i ∧ 1 ≤ i ∧ i < ((4 : Nat) : Int))) ∧
    (package_lookup_file_reads XXH32_ref
      [⟨0, UINT32_MAX, 2, 0⟩, ⟨5, UINT32_MAX, 1, 0⟩, ⟨6, 3, 3, 60⟩, ⟨7, 0, 0, 63⟩] (toInt32 4) 4 1
      (ascii "a")).Pairwise (· < ·) :=
  have hno : Index_No_Overflow
      [⟨0, UINT32_MAX, 2, 0⟩, ⟨5, UINT32_MAX, 1, 0⟩, ⟨6, 3, 3, 60⟩, ⟨7, 0, 0, 63⟩] := by
    intro i b hb hd
    have hl : i < 4 := by
      have := (List.getElem?_eq_some_iff.1 hb).1
      simpa using this
    have hall : ∀ x ∈ ([⟨0, UINT32_MAX, 2, 0⟩, ⟨5, UINT32_MAX, 1, 0⟩, ⟨6, 3, 3, 60⟩,
        ⟨7, 0, 0, 63⟩] : List Block_Header_), x.uncompressed_size ≤ 3 := by decide
    have := hall b (List.getElem?_mem hb)
    omega
  ⟨rfl, hno,
    lookup_terminates XXH32_ref
      ⟨[], [⟨0, UINT32_MAX, 2, 0⟩, ⟨5, UINT32_MAX, 1, 0⟩, ⟨6, 3, 3, 60⟩, ⟨7, 0, 0, 63⟩], 4⟩
      (ascii "a") 4 rfl hno (by decide) (by decide)⟩

/-! ## C18: what a returned index has matched -/

/-- The first segment of a path is what lies before its first delimiter; the
other segments are those of what follows that delimiter. -/
theorem segments_eq (p : Bytes) :
    segments p = p.take (length_until_delim p) ::
      (if p.drop (length_until_delim p) = [] then []
       else segments (p.drop (length_until_delim p + 1))) := by
  induction p with
  | nil => rfl
  | cons c p ih =>
    by_cases hc : isDelim c
    · simp [segments, length_until_delim, hc]
    · simp only [segments, length_until_delim, hc, if_false, List.take_succ_cons,
        List.drop_succ_cons]
      rw [ih]

theorem getLast?_cons_of_ne_nil {α : Type} (a : α) : ∀ {l : List α}, l ≠ [] →
    (a :: l).getLast? = l.getLast?
  | [], h => absurd rfl h
  | _ :: _, _ => List.getLast?_cons_cons

/-- The matching record of each segment on a run of the resolver loop that
returns an index. -/
theorem package_lookup_file_loop_matches (XXH32 : Bytes → Nat → Nat)
    (blocks : List Block_Header_) (count : Int) (hcount : count ≤ blocks.length)
    (hno : Index_No_Overflow blocks) :
    ∀ (fuel : Nat) (i : Int) (path : Bytes) (r : Int), 1 ≤ i →
      package_lookup_file_loop XXH32 blocks count fuel i path = some (Lookup.ret r) → r ≠ -1 →
      ∃ js : List Int,
        List.Forall₂ (fun j s => ∃ b, blocks[j.toNat]? = some b ∧ b.hash = XXH32 s 0)
          js (segments path) ∧
        js.Pairwise (· < ·) ∧ (∀ j ∈ js, i ≤ j) ∧ js.getLast? = some r ∧
        ∃ b s, blocks[r.toNat]? = some b ∧ (segments path).getLast? = some s ∧
          b.hash = XXH32 s 0 := by
  intro fuel
  induction fuel with
  | zero => intro i path r _ h; simp [package_lookup_file_loop] at h
  | succ n ih =>
    intro i path r hi h hr
    rw [package_lookup_file_loop] at h
    by_cases h1 : i < count
    · have h2 : ¬ i < 0 := by omega
      have hlt : i.toNat < blocks.length := by omega
      have hb : blocks[i.toNat]? = some blocks[i.toNat] := List.getElem?_eq_getElem hlt
      generalize blocks[i.toNat] = block at hb
      simp only [h1, if_true, h2, if_false, hb] at h
      have later : ∀ i', i < i' →
          package_lookup_file_loop XXH32 blocks count n i' path = some (Lookup.ret r) →
          ∃ js : List Int,
            List.Forall₂ (fun j s => ∃ b, blocks[j.toNat]? = some b ∧ b.hash = XXH32 s 0)
              js (segments path) ∧
            js.Pairwise (· < ·) ∧ (∀ j ∈ js, i ≤ j) ∧ js.getLast? = some r ∧
            ∃ b s, blocks[r.toNat]? = some b ∧ (segments path).getLast? = some s ∧
              b.hash = XXH32 s 0 := by
        intro i' hlt' h'
        obtain ⟨js, hf, hp, hge, hl, hlast⟩ := ih i' path r (by omega) h' hr
        exact ⟨js, hf, hp, fun j hj => by have := hge j hj; omega, hl, hlast⟩
      by_cases h3 : block.hash = XXH32 (List.take (length_until_delim path) path) 0 ∧
          List.drop (length_until_delim path) path = []
      · simp only [h3, and_self, if_true, Option.some.injEq, Lookup.ret.injEq] at h
        subst h
        have hs : segments path = [List.take (length_until_delim path) path] := by
          rw [segments_eq, if_pos h3.2]
        refine ⟨[i], ?_, by simp, by simp, by simp, block, _, hb, by rw [hs]; rfl, h3.1⟩
        rw [hs]
        exact List.Forall₂.cons ⟨block, hb, h3.1⟩ List.Forall₂.nil
      · simp only [h3, if_false] at h
        by_cases h4 : block.hash = XXH32 (List.take (length_until_delim path) path) 0
        · simp only [h4, if_true] at h
          have hne : ¬ List.drop (length_until_delim path) path = [] := fun e => h3 ⟨h4, e⟩
          have hs : segments path = List.take (length_until_delim path) path ::
              segments (List.drop (length_until_delim path + 1) path) := by
            rw [segments_eq, if_neg hne]
          obtain ⟨js, hf, hp, hge, hl, b, s, hrb, hrs, hrh⟩ := ih _ _ r (by omega) h hr
          have hjs : js ≠ [] := by
            intro e; rw [e] at hl; simp at hl
          refine ⟨i :: js, ?_, ?_, ?_, ?_, b, s, hrb, ?_, hrh⟩
          · rw [hs]
            exact List.Forall₂.cons ⟨block, hb, h4⟩ hf
          · rw [List.pairwise_cons]
            exact ⟨fun j hj => by have := hge j hj; omega, hp⟩
          · intro j hj
            rcases List.mem_cons.1 hj with rfl | hj
            · exact le_refl _
            · have := hge j hj; omega
          · rw [getLast?_cons_of_ne_nil _ hjs]; exact hl
          · rw [hs, getLast?_cons_of_ne_nil _ (segments_ne_nil _)]; exact hrs
        · simp only [h4, if_false] at h
          cases h5 : block_is_directory_ block with
          | true =>
            have hov := hno i.toNat block hb h5
            have hj : toInt32 (i.toNat + block.uncompressed_size)
                = ((i.toNat + block.uncompressed_size : Nat) : Int) :=
              toInt32_of_lt_int _ (by omega)
            have h6 : ¬ toInt32 (i.toNat + block.uncompressed_size) = 2147483647 := by
              rw [hj]; omega
            simp only [h5, if_true, h6, if_false] at h
            exact later _ (by rw [hj]; omega) h
          | false =>
            simp only [h5, Bool.false_eq_true, if_false] at h
            exact later _ (by omega) h
    · simp only [h1, if_false, Option.some.injEq, Lookup.ret.injEq] at h
      exact absurd h.symm hr

/-- C18: for every block table of `N` records on which the index arithmetic does
not overflow and every path with segments `s1 .. sk` (an empty segment counts,
with the digest of the empty string): when `package_lookup_file` returns an
index `i` other than -1, there are indices `1 <= i1 < i2 < ... < ik = i` with
`blocks[ij].hash = hash(sj)` for every `j`, and the returned record carries the
digest of the last segment. No check is made that the records matched before
the last one are directories: on the table `[root, a, b]` of two file records
the path `a/b` returns 2 although record 1 is not a directory record. -/
theorem lookup_result_matches_segments (XXH32 : Bytes → Nat → Nat) (package : Package)
    (path : Bytes) (fuel : Nat) (i : Int)
    (hlen : package.blocks.length = package.block_count)
    (hno : Index_No_Overflow package.blocks)
    (h : package_lookup_file XXH32 fuel package path = some (Lookup.ret i))
    (hi : i ≠ -1) :
    (∃ js : List Int,
      List.Forall₂ (fun j s => ∃ b, package.blocks[j.toNat]? = some b ∧ b.hash = XXH32 s 0)
        js (segments path) ∧
      js.Pairwise (· < ·) ∧ (∀ j ∈ js, 1 ≤ j) ∧ js.getLast? = some i) ∧
    (∃ b s, package.blocks[i.toNat]? = some b ∧ (segments path).getLast? = some s ∧
      b.hash = XXH32 s 0) ∧
    (package_lookup_file XXH32_ref 3
        ⟨[], [⟨0, UINT32_MAX, 2, 0⟩, ⟨XXH32_ref (ascii "a") 0, 1, 1, 60⟩,
          ⟨XXH32_ref (ascii "b") 0, 1, 1, 61⟩], 3⟩ (ascii "a/b") = some (Lookup.ret 2) ∧
      block_is_directory_ ⟨XXH32_ref (ascii "a") 0, 1, 1, 60⟩ = false) := by
  have hcount : toInt32 package.block_count ≤ (package.blocks.length : Int) := by
    rw [hlen]; exact toInt32_le _
  obtain ⟨js, hf, hp, hge, hl, hlast⟩ :=
    package_lookup_file_loop_matches XXH32 package.blocks _ hcount hno fuel 1 path i
      (le_refl _) h hi
  exact ⟨⟨js, hf, hp, hge, hl⟩, hlast, by decide, by decide⟩

theorem lookup_result_matches_segments_witness :
    (package_create XXH32_ref tag_compress ⟨some tree_a_sub, false⟩).package.blocks.length
      = (package_create XXH32_ref tag_compress ⟨some tree_a_sub, false⟩).package.block_count ∧
    Index_No_Overflow (package_create XXH32_ref tag_compress ⟨some tree_a_sub, false⟩).package.blocks ∧
    package_lookup_file XXH32_ref 4
      (package_create XXH32_ref tag_compress ⟨some tree_a_sub, false⟩).package (ascii "sub/b.txt")
      = some (Lookup.ret 3) ∧
    (3 : Int) ≠ -1 ∧
    (∃ js : List Int,
      List.Forall₂ (fun j s => ∃ b,
          (package_create XXH32_ref tag_compress ⟨some tree_a_sub, false⟩).package.blocks[j.toNat]?
            = some b ∧ b.hash = XXH32_ref s 0)
        js (segments (ascii "sub/b.txt")) ∧
      js.Pairwise (· < ·) ∧ (∀ j ∈ js, 1 ≤ j) ∧ js.getLast? = some 3) ∧
    (∃ b s,
      (package_create XXH32_ref tag_compress ⟨some tree_a_sub, false⟩).package.blocks[(3 : Int).toNat]?
        = some b ∧
      (segments (ascii "sub/b.txt")).getLast? = some s ∧ b.hash = XXH32_ref s 0) ∧
    (package_lookup_file XXH32_ref 3
        ⟨[], [⟨0, UINT32_MAX, 2, 0⟩, ⟨XXH32_ref (ascii "a") 0, 1, 1, 60⟩,
          ⟨XXH32_ref (ascii "b") 0, 1, 1, 61⟩], 3⟩ (ascii "a/b") = some (Lookup.ret 2) ∧
      block_is_directory_ ⟨XXH32_ref (ascii "a") 0, 1, 1, 60⟩ = false) :=
  have hno : Index_No_Overflow
      (package_create XXH32_ref tag_compress ⟨some tree_a_sub, false⟩).package.blocks := by
    intro i b hb hd
    have hl : i < 4 := by
      have := (List.getElem?_eq_some_iff.1 hb).1
      simpa using this
    have hall : ∀ x ∈ (package_create XXH32_ref tag_compress
        ⟨some tree_a_sub, false⟩).package.blocks, x.uncompressed_size ≤ 2 := by decide
    have := hall b (List.getElem?_mem hb)
    omega
  ⟨by decide, hno, by decide, by decide,
    lookup_result_matches_segments XXH32_ref
      (package_create XXH32_ref tag_compress ⟨some tree_a_sub, false⟩).package (ascii "sub/b.txt")
      4 3 (by decide) hno (by decide) (by decide)⟩

/-! ## The layout of the written table -/

theorem Contiguous.append : ∀ (xs ys : List Block_Header_) (start : Nat),
    Contiguous start xs →
    Contiguous (start + (xs.map Block_Header_.compressed_size).sum) ys →
    Contiguous start (xs ++ ys)
  | [], ys, start, _, h => by simpa using h
  | x :: xs, ys, start, hx, hy => by
    simp only [Contiguous, List.cons_append] at hx ⊢
    refine ⟨hx.1, Contiguous.append xs ys _ hx.2 ?_⟩
    simpa only [List.map_cons, List.sum_cons, Nat.add_assoc] using hy

theorem Contiguous.lower_bound : ∀ (xs : List Block_Header_) (start : Nat),
    Contiguous start xs → ∀ r ∈ xs, start ≤ r.offset
  | [], _, _ => by intro r h; simp at h
  | x :: xs, start, hx => by
    intro r hr
    simp only [Contiguous] at hx
    rcases List.mem_cons.1 hr with rfl | hr
    · omega
    · have := Contiguous.lower_bound xs _ hx.2 r hr
      omega

theorem Contiguous.chain : ∀ (xs : List Block_Header_) (start : Nat),
    Contiguous start xs →
    xs.Chain' (fun a b => b.offset = a.offset + a.compressed_size)
  | [], _, _ => List.chain'_nil
  | [_], _, _ => List.chain'_singleton _
  | x :: y :: xs, start, h => by
    have hyx : Contiguous (start + x.compressed_size) (y :: xs) := h.2
    have hy : y.offset = start + x.compressed_size := hyx.1
    have hx : x.offset = start := h.1
    rw [List.chain'_cons]
    exact ⟨by omega, Contiguous.chain (y :: xs) _ hyx⟩

theorem Contiguous.pairwise : ∀ (xs : List Block_Header_) (start : Nat),
    Contiguous start xs →
    xs.Pairwise (fun a b => a.offset + a.compressed_size ≤ b.offset)
  | [], _, _ => List.Pairwise.nil
  | x :: xs, start, h => by
    simp only [Contiguous] at h
    rw [List.pairwise_cons]
    refine ⟨fun r hr => ?_, Contiguous.pairwise xs _ h.2⟩
    have := Contiguous.lower_bound xs _ h.2 r hr
    omega

theorem data_offset_step (d n : Nat) :
    (((d : Int) + toInt32 n) % 18446744073709551616).toNat % 4294967296
      = (d + n) % 4294967296 := by
  unfold toInt32
  split <;> omega

/-- The file loop of `read_directory_` lays the records of a directory out back
to back, as long as the offsets stay below `2^32`. -/
theorem read_directory_files_contiguous (XXH32 : Bytes → Nat → Nat)
    (LZ4_compress_default : Bytes → Bytes) (compress : Bool) (entries : Listing) :
    ∀ (data_offset start : Nat), data_offset % 4294967296 = start →
      start + entries.direct_payload LZ4_compress_default compress < 4294967296 →
      Contiguous start
          ((read_directory_files XXH32 LZ4_compress_default compress entries data_offset).1.map
            Block_Write.header) ∧
        (((read_directory_files XXH32 LZ4_compress_default compress entries data_offset).1.map
            Block_Write.header).map Block_Header_.compressed_size).sum
          = entries.direct_payload LZ4_compress_default compress ∧
        (read_directory_files XXH32 LZ4_compress_default compress entries data_offset).2
            % 4294967296
          = start + entries.direct_payload LZ4_compress_default compress ∧
        ∀ w ∈ (read_directory_files XXH32 LZ4_compress_default compress entries data_offset).1,
          w.payload.isSome = true := by
  induction entries with
  | nil =>
    intro d s hd hs
    simp only [read_directory_files, List.map_nil, Contiguous, List.sum_nil,
      Listing.direct_payload, Listing.direct_files, Nat.add_zero, hd, List.not_mem_nil,
      false_implies, implies_true, and_self]
  | reg name data rest ih =>
    intro d s hd hs
    have hst : (toInt32 (stored_length LZ4_compress_default compress data) % 4294967296).toNat
        = stored_length LZ4_compress_default compress data := by
      rw [toInt32_emod]
      simp only [Listing.direct_payload, Listing.direct_files, List.map_cons, List.sum_cons]
        at hs
      omega
    have hcs : (if compress = true then toInt32 (LZ4_compress_default data).length
        else toInt32 data.length)
        = toInt32 (stored_length LZ4_compress_default compress data) := by
      cases compress <;> rfl
    simp only [Listing.direct_payload, Listing.direct_files, List.map_cons, List.sum_cons]
      at hs ⊢
    have hnext := ih
      (((d : Int) + toInt32 (stored_length LZ4_compress_default compress data))
        % 18446744073709551616).toNat
      (s + stored_length LZ4_compress_default compress data)
      (by rw [data_offset_step]; omega)
      (by simp only [Listing.direct_payload]; omega)
    simp only [Listing.direct_payload] at hnext
    obtain ⟨h1, h2, h3, h4⟩ := hnext
    simp only [read_directory_files, hcs, hst, List.map_cons, Contiguous, List.sum_cons, hd,
      true_and, h1, h2, h3, List.mem_cons, forall_eq_or_imp, Option.isSome_some]
    exact ⟨by omega, h4⟩
  | dir name sub rest _ ih =>
    intro d s hd hs
    simpa only [read_directory_files, Listing.direct_payload, Listing.direct_files]
      using ih d s hd hs
  | nodir name rest ih =>
    intro d s hd hs
    simpa only [read_directory_files, Listing.direct_payload, Listing.direct_files]
      using ih d s hd hs
  | other name rest ih =>
    intro d s hd hs
    simpa only [read_directory_files, Listing.direct_payload, Listing.direct_files]
      using ih d s hd hs

theorem filter_payload_of_all (ws : List Block_Write)
    (h : ∀ w ∈ ws, w.payload.isSome = true) :
    ws.filter (fun w => w.payload.isSome) = ws :=
  List.filter_eq_self.2 h

theorem package_create_loop_contiguous (XXH32 : Bytes → Nat → Nat)
    (LZ4_compress_default : Bytes → Bytes) (compress : Bool)
    (read_queue : List Directory_Read_) :
    ∀ (data_offset start : Nat), data_offset % 4294967296 = start →
      start + (read_queue.map fun r =>
          r.dir.direct_payload LZ4_compress_default compress).sum < 4294967296 →
      Contiguous start
        (((package_create_loop XXH32 LZ4_compress_default compress read_queue
            data_offset).filter fun w => w.payload.isSome).map Block_Write.header) := by
  induction read_queue with
  | nil => intro d s _ _; trivial
  | cons read rest ih =>
    intro d s hd hs
    simp only [List.map_cons, List.sum_cons] at hs
    obtain ⟨h1, h2, h3, h4⟩ :=
      read_directory_files_contiguous XXH32 LZ4_compress_default compress read.dir d s hd
        (by omega)
    simp only [package_create_loop, read_directory_, List.cons_append, List.filter_cons,
      Option.isSome_none, Bool.false_eq_true, if_false, List.filter_append,
      filter_payload_of_all _ h4, List.map_append]
    refine Contiguous.append _ _ _ h1 (ih _ _ ?_ ?_)
    · rw [h3, h2]
    · rw [h2]; omega

theorem reads_payload_sum (XXH32 : Bytes → Nat → Nat) (LZ4_compress_default : Bytes → Bytes)
    (compress : Bool) (entries : Listing) :
    ∀ path : Bytes,
      entries.direct_payload LZ4_compress_default compress
          + ((entries.reads XXH32 path).map fun r =>
              r.dir.direct_payload LZ4_compress_default compress).sum
        = entries.payload_total LZ4_compress_default compress := by
  induction entries with
  | nil => intro path; rfl
  | reg name data rest ih =>
    intro path
    have h := ih path
    simp only [Listing.direct_payload, Listing.direct_files, Listing.reads,
      Listing.payload_total, List.map_cons, List.sum_cons] at h ⊢
    omega
  | dir name sub rest ihs ihr =>
    intro path
    have h1 := ihs (path ++ name ++ [PATH_DELIM])
    have h2 := ihr path
    simp only [Listing.direct_payload, Listing.direct_files, Listing.reads,
      Listing.payload_total, List.map_cons, List.sum_cons, List.map_append, List.sum_append]
      at h1 h2 ⊢
    omega
  | nodir name rest ih =>
    intro path
    simpa only [Listing.direct_payload, Listing.direct_files, Listing.reads,
      Listing.payload_total] using ih path
  | other name rest ih =>
    intro path
    simpa only [Listing.direct_payload, Listing.direct_files, Listing.reads,
      Listing.payload_total] using ih path

/-- C16: for every source tree whose archive fits in the 32-bit offset space,
the file records of the table written by `package_create`, taken in table
order, lie back to back from `12 + 16 * block_count`: the first file's offset
is `12 + 16 * block_count`, each later file's offset is the previous file's
offset plus the previous file's `compressed_size`; hence the byte ranges
`[offset, offset + compressed_size)` of distinct files are pairwise disjoint
and none starts before the end of the block table. -/
theorem file_offsets_are_contiguous (XXH32 : Bytes → Nat → Nat)
    (LZ4_compress_default : Bytes → Bytes) (tree : Listing) (disable : Bool)
    (hfit : archive_size LZ4_compress_default (!disable) tree < 4294967296) :
    (∀ r, (package_create XXH32 LZ4_compress_default ⟨some tree, disable⟩).file_records.head?
        = some r →
      r.offset = 12 + 16 *
        (package_create XXH32 LZ4_compress_default ⟨some tree, disable⟩).header.block_count) ∧
    (package_create XXH32 LZ4_compress_default ⟨some tree, disable⟩).file_records.Chain'
      (fun a b => b.offset = a.offset + a.compressed_size) ∧
    (package_create XXH32 LZ4_compress_default ⟨some tree, disable⟩).file_records.Pairwise
      (fun a b => a.offset + a.compressed_size ≤ b.offset) ∧
    ∀ r ∈ (package_create XXH32 LZ4_compress_default ⟨some tree, disable⟩).file_records,
      12 + 16 *
        (package_create XXH32 LZ4_compress_default ⟨some tree, disable⟩).header.block_count
        ≤ r.offset := by
  have hbc := package_create_block_count XXH32 LZ4_compress_default tree disable
  simp only [archive_size] at hfit
  have hbc2 : (package_create XXH32 LZ4_compress_default ⟨some tree, disable⟩).header.block_count
      = 1 + tree.block_total := by
    rw [hbc]; omega
  have hsum := reads_payload_sum XXH32 LZ4_compress_default (!disable) tree []
  have hc : Contiguous (12 + 16 * (1 + tree.block_total))
      (package_create XXH32 LZ4_compress_default ⟨some tree, disable⟩).file_records := by
    simp only [Archive.file_records, package_create, count_directory_snd, List.nil_append,
      count_directory_fst]
    apply package_create_loop_contiguous
    · omega
    · simp only [List.map_cons, List.sum_cons]
      omega
  rw [hbc2]
  refine ⟨?_, Contiguous.chain _ _ hc, Contiguous.pairwise _ _ hc,
    Contiguous.lower_bound _ _ hc⟩
  intro r hr
  cases hl : (package_create XXH32 LZ4_compress_default ⟨some tree, disable⟩).file_records with
  | nil => rw [hl] at hr; simp at hr
  | cons x xs =>
    rw [hl] at hr hc
    simp only [List.head?_cons, Option.some.injEq] at hr
    subst hr
    exact hc.1

theorem file_offsets_are_contiguous_witness :
    archive_size tag_compress (!false) tree_shadow < 4294967296 ∧
    (package_create XXH32_ref tag_compress ⟨some tree_shadow, false⟩).file_records
      = [⟨XXH32_ref (ascii "d") 0, 2, 1, 108⟩, ⟨XXH32_ref (ascii "f") 0, 2, 1, 110⟩] ∧
    (∀ r, (package_create XXH32_ref tag_compress ⟨some tree_shadow, false⟩).file_records.head?
        = some r →
      r.offset = 12 + 16 *
        (package_create XXH32_ref tag_compress ⟨some tree_shadow, false⟩).header.block_count) ∧
    (package_create XXH32_ref tag_compress ⟨some tree_shadow, false⟩).file_records.Chain'
      (fun a b => b.offset = a.offset + a.compressed_size) ∧
    (package_create XXH32_ref tag_compress ⟨some tree_shadow, false⟩).file_records.Pairwise
      (fun a b => a.offset + a.compressed_size ≤ b.offset) ∧
    ∀ r ∈ (package_create XXH32_ref tag_compress ⟨some tree_shadow, false⟩).file_records,
      12 + 16 *
        (package_create XXH32_ref tag_compress ⟨some tree_shadow, false⟩).header.block_count
        ≤ r.offset :=
  ⟨by decide, by decide,
    file_offsets_are_contiguous XXH32_ref tag_compress tree_shadow false (by decide)⟩

/-! ## C13, C19: where the records of a directory lie -/

theorem Nested.nil : Nested [] := by
  intro k b h; simp at h

theorem Nested.cons {xs : List Block_Header_} (b : Block_Header_) (hx : Nested xs)
    (hb : block_is_directory_ b = true → b.uncompressed_size ≤ xs.length) :
    Nested (b :: xs) := by
  intro k c hk hd
  cases k with
  | zero =>
    simp only [List.getElem?_cons_zero, Option.some.injEq] at hk
    subst hk
    have := hb hd
    simp only [List.length_cons]
    omega
  | succ k =>
    simp only [List.getElem?_cons_succ] at hk
    have := hx k c hk hd
    simp only [List.length_cons]
    omega

/-- The condition on the paths is a restriction: `tree_long_path` is a tree of
regular files and listable directories, and below a base path of four bytes the
`Directory_Read_` of its inner directory carries a path of 509 bytes, one more
than `char path[512-4]` holds with the terminator, so the run does not fit;
below the same base path the run on `tree_shadow` fits. -/
theorem long_path_does_not_fit :
    tree_long_path.plain ∧
    ((count_directory_ XXH32_ref (some tree_long_path) 0 []).2.map
      fun read => 5 + read.path.length) = [5, 257, 509] ∧
    ¬ package_create_fits XXH32_ref 5 ⟨some tree_long_path, false⟩ ∧
    package_create_fits XXH32_ref 5 ⟨some tree_shadow, false⟩ := by
  decide

end AssetPacker
